import Mathlib

/-!
Shallow embedding of the jlog journal parsing and aggregation engine
(`src/jlog/parser.py` and `src/jlog/templates.py`), together with theorems
checking the natural-language specification against the code.

Python strings are modelled as Lean `String` / `List Char` over Unicode
codepoints.  The machine floats of the work-time pipeline
(`duration.total_seconds() / 3600`, the subtraction of one,
`float(match.group(1))` for the extra hours, and one-decimal `f"{x:.1f}"`
formatting) are modelled exactly as IEEE binary64 values: each float is
carried as its exact rational value `m / 2 ^ k`, every arithmetic operation
re-rounds the exact result to 53 significant bits with ties to even, and the
one-decimal formatting rounds the exact value of the float with the tie
digit going to even, digit for digit as CPython prints it (so a work time of
exactly 1.25 hours prints as "1.2").  The weekly aggregation totals are kept
as exact rational sums of the parsed hours.  `datetime` values carrying only
a time of day are modelled as minutes since midnight; `datetime` values
carrying a calendar date are modelled by the proleptic-Gregorian ordinal
that CPython's `datetime` itself uses internally.
-/

namespace JLog

/-- Python whitespace for `str.strip()` and regex `\s`, restricted to the
ASCII whitespace characters (the only whitespace the journal data contains). -/
def isPyWs (c : Char) : Bool :=
  c = ' ' || c = '\t' || c = '\n' || c = '\r' || c = Char.ofNat 11 || c = Char.ofNat 12

/-- Left part of Python `str.strip()`. -/
def stripLeft (cs : List Char) : List Char := cs.dropWhile isPyWs

/-- Right part of Python `str.strip()`. -/
def stripRight (cs : List Char) : List Char := (cs.reverse.dropWhile isPyWs).reverse

/-- Python `str.strip()` on a list of characters. -/
def pyStrip (cs : List Char) : List Char := stripRight (stripLeft cs)

/-- Numeric value of a digit character. -/
def digitVal (c : Char) : Nat := c.toNat - 48

/-- ASCII lower-casing, as applied by `re.IGNORECASE` on the ASCII letters
appearing in the patterns of the source. -/
def lowerAscii (c : Char) : Char :=
  if 'A' ≤ c && c ≤ 'Z' then Char.ofNat (c.toNat + 32) else c

/-- Value of a digit string read left to right. -/
def natOfDigits (ds : List Char) : Nat := ds.foldl (fun a c => a * 10 + digitVal c) 0

/-- Alternatives of strptime directive `%H` (CPython regex `2[0-3]|[0-1]\d|\d`),
in the order the regex engine tries them, each paired with the rest of the
input. -/
def altsH : List Char → List (Nat × List Char)
  | a :: b :: rest =>
    (if a.isDigit && b.isDigit && 10 * digitVal a + digitVal b ≤ 23 then
      [(10 * digitVal a + digitVal b, rest)] else []) ++
    (if a.isDigit then [(digitVal a, b :: rest)] else [])
  | [a] => if a.isDigit then [(digitVal a, [])] else []
  | [] => []

/-- Alternatives of strptime directive `%M` (CPython regex `[0-5]\d|\d`). -/
def altsM : List Char → List (Nat × List Char)
  | a :: b :: rest =>
    (if a.isDigit && b.isDigit && 10 * digitVal a + digitVal b ≤ 59 then
      [(10 * digitVal a + digitVal b, rest)] else []) ++
    (if a.isDigit then [(digitVal a, b :: rest)] else [])
  | [a] => if a.isDigit then [(digitVal a, [])] else []
  | [] => []

/-- Alternatives of strptime directive `%I` (CPython regex `1[0-2]|0[1-9]|[1-9]`). -/
def altsI : List Char → List (Nat × List Char)
  | a :: b :: rest =>
    (if a.isDigit && b.isDigit &&
        ((digitVal a == 1 && digitVal b ≤ 2) || (digitVal a == 0 && 1 ≤ digitVal b)) then
      [(10 * digitVal a + digitVal b, rest)] else []) ++
    (if a.isDigit && 1 ≤ digitVal a then [(digitVal a, b :: rest)] else [])
  | [a] => if a.isDigit && 1 ≤ digitVal a then [(digitVal a, [])] else []
  | [] => []

/-- Strptime directive `%p`: `AM`/`PM`, case-insensitively; returns whether the
meridiem is PM together with the rest of the input. -/
def parseMeridiem : List Char → Option (Bool × List Char)
  | a :: b :: rest =>
    if lowerAscii b = 'm' then
      if lowerAscii a = 'a' then some (false, rest)
      else if lowerAscii a = 'p' then some (true, rest)
      else none
    else none
  | _ => none

/-- CPython 12-hour to 24-hour conversion for `%I` with `%p`. -/
def adjust12 (pm : Bool) (h : Nat) : Nat :=
  if pm then (if h = 12 then 12 else h + 12) else (if h = 12 then 0 else h)

/-- First successful result of `f` over a list, in order: regex-alternation
backtracking. -/
def firstSome {α β : Type} (f : α → Option β) : List α → Option β
  | [] => none
  | a :: t =>
    match f a with
    | some b => some b
    | none => firstSome f t

/-- Format `"%H:%M"`, full input consumed; result in minutes since midnight. -/
def fmtHM (cs : List Char) : Option Nat :=
  firstSome (fun hr =>
    match hr.2 with
    | ':' :: r2 =>
      firstSome (fun mr => if mr.2 = [] then some (hr.1 * 60 + mr.1) else none) (altsM r2)
    | _ => none) (altsH cs)

/-- Format `"%I:%M %p"`; the blank in the format string matches `\s+`. -/
def fmtIMpSpace (cs : List Char) : Option Nat :=
  firstSome (fun hr =>
    match hr.2 with
    | ':' :: r2 =>
      firstSome (fun mr =>
        match mr.2 with
        | c :: r3 =>
          if isPyWs c then
            match parseMeridiem (r3.dropWhile isPyWs) with
            | some (pm, []) => some (adjust12 pm hr.1 * 60 + mr.1)
            | _ => none
          else none
        | [] => none) (altsM r2)
    | _ => none) (altsI cs)

/-- Format `"%I:%M%p"`. -/
def fmtIMpNoSpace (cs : List Char) : Option Nat :=
  firstSome (fun hr =>
    match hr.2 with
    | ':' :: r2 =>
      firstSome (fun mr =>
        match parseMeridiem mr.2 with
        | some (pm, []) => some (adjust12 pm hr.1 * 60 + mr.1)
        | _ => none) (altsM r2)
    | _ => none) (altsI cs)

/-- Format `"%H.%M"`. -/
def fmtHdotM (cs : List Char) : Option Nat :=
  firstSome (fun hr =>
    match hr.2 with
    | '.' :: r2 =>
      firstSome (fun mr => if mr.2 = [] then some (hr.1 * 60 + mr.1) else none) (altsM r2)
    | _ => none) (altsH cs)

/-- Format `"%H"`. -/
def fmtH (cs : List Char) : Option Nat :=
  firstSome (fun hr => if hr.2 = [] then some (hr.1 * 60) else none) (altsH cs)

/-- Format `"%I %p"`. -/
def fmtIp (cs : List Char) : Option Nat :=
  firstSome (fun hr =>
    match hr.2 with
    | c :: r =>
      if isPyWs c then
        match parseMeridiem (r.dropWhile isPyWs) with
        | some (pm, []) => some (adjust12 pm hr.1 * 60)
        | _ => none
      else none
    | [] => none) (altsI cs)

/-- Model of `parse_time_string` from `parser.py`: strip the input, then try the six
strptime formats in order, returning the parsed time of day as minutes since
midnight (the hour and minute of the `datetime` the source builds on its
fixed base date), or `none` when every format fails. -/
def parse_time_string (s : String) : Option Nat :=
  let cs := pyStrip s.data
  match fmtHM cs with
  | some v => some v
  | none =>
  match fmtIMpSpace cs with
  | some v => some v
  | none =>
  match fmtIMpNoSpace cs with
  | some v => some v
  | none =>
  match fmtHdotM cs with
  | some v => some v
  | none =>
  match fmtH cs with
  | some v => some v
  | none => fmtIp cs

/-- Regex `(\d+(?:\.\d+)?)h?` applied via `re.match`, returning the leading
decimal number of the input (the `float(match.group(1))` of the source) as an
exact rational, or `none` when the regex does not match. -/
def matchNumber (cs : List Char) : Option ℚ :=
  let ds := cs.takeWhile Char.isDigit
  if ds = [] then none
  else
    match cs.dropWhile Char.isDigit with
    | '.' :: r2 =>
      let fs := r2.takeWhile Char.isDigit
      if fs = [] then some (natOfDigits ds)
      else some ((natOfDigits ds : ℚ) + (natOfDigits fs : ℚ) / 10 ^ fs.length)
    | _ => some (natOfDigits ds)

/-- Binary length of a natural number, by fuel recursion: `bitlenAux fuel n`
counts the halvings needed to reach zero.  Fuel `n` itself always suffices. -/
def bitlenAux : Nat → Nat → Nat
  | 0, _ => 0
  | fuel + 1, n => if n = 0 then 0 else bitlenAux fuel (n / 2) + 1

/-- Number of binary digits of a natural number, so that a positive `n`
satisfies `2 ^ (bitlen n - 1) <= n < 2 ^ bitlen n`. -/
def bitlen (n : Nat) : Nat := bitlenAux n n

/-- Exact value of an IEEE binary64 float, as a mantissa times a power of
two: the rational `m / 2 ^ k`.  Every float of the work-time pipeline in the
source is well inside the normal range of binary64, so exponent limits and
subnormals play no role. -/
structure Dy where
  m : Int
  k : Nat

/-- Round-half-to-even of the nonnegative rational `a / d` to an integer:
the rounding CPython applies both inside float arithmetic and when printing
a float to a fixed number of decimals. -/
def halfEven (a d : Nat) : Nat :=
  let n0 := a / d
  let r := a % d
  if d < 2 * r then n0 + 1
  else if 2 * r < d then n0
  else if n0 % 2 = 0 then n0 else n0 + 1

/-- Floor of the base-two logarithm of `a / d` for positive naturals `a` and
`d`: the unique `e` with `2 ^ e <= a / d < 2 ^ (e + 1)`, obtained from the
binary lengths of `a` and `d` and one comparison. -/
def floorLog2 (a d : Nat) : Int :=
  let d0 : Int := (bitlen a : Int) - (bitlen d : Int)
  if 0 ≤ d0 then
    if d * 2 ^ d0.toNat ≤ a then d0 else d0 - 1
  else
    if d ≤ a * 2 ^ (-d0).toNat then d0 else d0 - 1

/-- Nearest IEEE binary64 value of the positive rational `a / d`, ties to
even: the quotient is scaled to a 53-bit mantissa at the exponent
`floorLog2 a d` and rounded half to even. -/
def roundPos (a d : Nat) : Dy :=
  let e : Int := floorLog2 a d
  let s : Int := 52 - e
  let N : Nat := if 0 ≤ s then a * 2 ^ s.toNat else a
  let D : Nat := if 0 ≤ s then d else d * 2 ^ (-s).toNat
  let n1 : Nat := halfEven N D
  if 0 ≤ s then ⟨(n1 : Int), s.toNat⟩ else ⟨(n1 : Int) * 2 ^ (-s).toNat, 0⟩

/-- Correctly rounded IEEE binary64 value of the rational `n / d` (round to
nearest, ties to even) for an integer numerator and a positive natural
denominator; rounding is symmetric in the sign. -/
def roundQ (n : Int) (d : Nat) : Dy :=
  if n = 0 then ⟨0, 0⟩
  else
    let p := roundPos n.natAbs d
    if 0 < n then p else ⟨-p.m, p.k⟩

/-- IEEE binary64 division of two naturals: models
`duration.total_seconds() / 3600` from the source, whose operands (a whole
number of seconds, and 3600) are both exactly representable. -/
def fdiv (a d : Nat) : Dy := roundQ (a : Int) d

/-- IEEE binary64 subtraction of one: models `base_hours - 1` from the
source; the exact difference is re-rounded to 53 bits as the hardware does. -/
def fsubOne (x : Dy) : Dy := roundQ (x.m - 2 ^ x.k) (2 ^ x.k)

/-- IEEE binary64 addition: models `work_hours += extra_value` from the
source; the exact sum of the two float values is re-rounded to 53 bits. -/
def fadd (x y : Dy) : Dy :=
  let k : Nat := max x.k y.k
  roundQ (x.m * 2 ^ (k - x.k) + y.m * 2 ^ (k - y.k)) (2 ^ k)

/-- Python `max(0, work_hours)` on a float work time: the float value is
negative exactly when its mantissa is. -/
def pymaxD (x : Dy) : Dy := if x.m < 0 then ⟨0, 0⟩ else x

/-- Hours formatting from `calculate_work_time`: `f"{int(x)}h"` when the
float is integral, else `f"{x:.1f}h"`.  CPython formats the exact value of
the float, rounding the kept digit half to even; the source applies this
formatter only to nonnegative work times (`max(0, ...)` plus nonnegative
extra hours), which the model takes as its domain. -/
def formatHours (x : Dy) : String :=
  let a : Nat := x.m.toNat
  if a % 2 ^ x.k = 0 then toString (a / 2 ^ x.k) ++ "h"
  else
    let t : Nat := halfEven (10 * a) (2 ^ x.k)
    toString (t / 10) ++ "." ++ toString (t % 10) ++ "h"

/-- Model of `calculate_work_time` from `parser.py`.  The two time arguments and the
extra-hours argument are `Optional[str]` in the source; Python falsiness of
`None` and `""` is modelled explicitly. -/
def calculate_work_time (start_time end_time extra_hours : Option String) : String :=
  if start_time.getD "" = "" ∨ end_time.getD "" = "" then "-"
  else
    match parse_time_string (start_time.getD ""), parse_time_string (end_time.getD "") with
    | some sm, some em =>
      let em2 := if em < sm then em + 1440 else em
      let base : Dy := fdiv ((em2 - sm) * 60) 3600
      let wh : Dy := pymaxD (fsubOne base)
      let wh2 : Dy :=
        match extra_hours with
        | some ex =>
          if ex = "" then wh
          else
            let exc := pyStrip ex.data
            if exc = [] then wh
            else
              match matchNumber exc with
              | some v => fadd wh (roundQ v.num v.den)
              | none => wh
        | none => wh
      formatHours wh2
    | _, _ => "-"

/-- Claim C1: for every start and end string that `parse_time_string` accepts,
with extra absent, `calculate_work_time` returns the work time
`max(0, duration_in_hours - 1)` computed in IEEE binary64 arithmetic exactly
as the source does, where the duration in minutes wraps to the next day when
end < start, formatted by the integral/one-decimal hours formatter; the
overnight example start "22:00", end "02:00", extra absent yields "3h"; and
the quarter-hour example start "09:00", end "11:15" (work time exactly 1.25
hours, a one-decimal tie that CPython float formatting rounds half to even)
yields "1.2h". -/
theorem C1_work_time_formula :
    (∀ (s e : String) (ts te : ℕ),
      parse_time_string s = some ts → parse_time_string e = some te →
      calculate_work_time (some s) (some e) none =
        formatHours (pymaxD (fsubOne
          (fdiv ((if te < ts then te + 1440 - ts else te - ts) * 60) 3600)))) ∧
    calculate_work_time (some "22:00") (some "02:00") none = "3h" ∧
    calculate_work_time (some "09:00") (some "11:15") none = "1.2h" := by
  refine ⟨?_, ?_, ?_⟩
  · intro s e ts te hs he
    have hsne : ¬ s = "" := by
      intro h; subst h
      exact Option.noConfusion (show (none : Option ℕ) = some ts from hs)
    have hene : ¬ e = "" := by
      intro h; subst h
      exact Option.noConfusion (show (none : Option ℕ) = some te from he)
    unfold calculate_work_time
    have hcond : ¬((some s).getD "" = "" ∨ (some e).getD "" = "") := by
      simp only [Option.getD_some]
      rintro (h | h)
      exacts [hsne h, hene h]
    rw [if_neg hcond]
    simp only [Option.getD_some, hs, he]
    have hd : (if te < ts then te + 1440 else te) - ts =
        (if te < ts then te + 1440 - ts else te - ts) := by
      by_cases hlt : te < ts
      · rw [if_pos hlt, if_pos hlt]
      · rw [if_neg hlt, if_neg hlt]
    rw [hd]
  · rfl
  · rfl

/-- Concrete instantiation of the universally quantified part of
`C1_work_time_formula`: a 09:00 to 17:30 day. -/
theorem C1_work_time_formula_witness :
    calculate_work_time (some "09:00") (some "17:30") none =
      formatHours (pymaxD (fsubOne
        (fdiv ((if (1050 : ℕ) < 540 then 1050 + 1440 - 540 else 1050 - 540) * 60) 3600))) :=
  C1_work_time_formula.1 "09:00" "17:30" 540 1050 rfl rfl

/-- Claim C7: whenever start or end is missing (None or empty) or unparseable
as a time of day, `calculate_work_time` returns "-", whatever extra is. -/
theorem C7_missing_or_unparseable_dash
    (st et extra : Option String)
    (h : (st = none ∨ st = some "" ∨ ∃ s, st = some s ∧ parse_time_string s = none) ∨
         (et = none ∨ et = some "" ∨ ∃ s, et = some s ∧ parse_time_string s = none)) :
    calculate_work_time st et extra = "-" := by
  unfold calculate_work_time
  by_cases hc : st.getD "" = "" ∨ et.getD "" = ""
  · rw [if_pos hc]
  · rw [if_neg hc]
    have hone : parse_time_string (st.getD "") = none ∨
        parse_time_string (et.getD "") = none := by
      rcases h with (h | h | ⟨s, hst, hp⟩) | (h | h | ⟨s, het, hp⟩)
      · exact absurd (Or.inl (by simp [h])) hc
      · exact absurd (Or.inl (by simp [h])) hc
      · left; rw [hst, Option.getD_some]; exact hp
      · exact absurd (Or.inr (by simp [h])) hc
      · exact absurd (Or.inr (by simp [h])) hc
      · right; rw [het, Option.getD_some]; exact hp
    rcases hp1 : parse_time_string (st.getD "") with _ | v1 <;>
      rcases hp2 : parse_time_string (et.getD "") with _ | v2 <;>
      simp only [hp1, hp2]
    rcases hone with hv | hv
    · exact Option.noConfusion (hp1 ▸ hv)
    · exact Option.noConfusion (hp2 ▸ hv)

/-- Concrete instantiation of `C7_missing_or_unparseable_dash`: an unparseable
start time with a valid end time and extra hours still yields "-". -/
theorem C7_missing_or_unparseable_dash_witness :
    calculate_work_time (some "soon") (some "17:00") (some "2h") = "-" :=
  C7_missing_or_unparseable_dash (some "soon") (some "17:00") (some "2h")
    (Or.inl (Or.inr (Or.inr ⟨"soon", rfl, rfl⟩)))

/-- Matcher for the regex `\d{4}-\d{2}-\d{2}` anchored at the head of a
character list. -/
def dateShapeAt : List Char → Bool
  | a :: b :: c :: d :: '-' :: e :: f :: '-' :: g :: h :: _ =>
    a.isDigit && b.isDigit && c.isDigit && d.isDigit && e.isDigit && f.isDigit &&
      g.isDigit && h.isDigit
  | _ => false

/-- Leftmost match position of `re.search(r'(\d{4}-\d{2}-\d{2})', ...)`. -/
def findDateIdx : List Char → Option Nat
  | [] => none
  | c :: t => if dateShapeAt (c :: t) then some 0 else (findDateIdx t).map (· + 1)

/-- Python `str.replace(old, '')` in a single left-to-right pass, with fuel;
the initial fuel is the length of the scanned list, which suffices. -/
def removeAllAux (pat : List Char) : Nat → List Char → List Char
  | _, [] => []
  | 0, cs => cs
  | fuel + 1, c :: t =>
    if pat.isPrefixOf (c :: t) ∧ pat ≠ [] then
      removeAllAux pat fuel ((c :: t).drop pat.length)
    else c :: removeAllAux pat fuel t

/-- Python `str.replace(pat, '')`: remove every left-to-right non-overlapping
occurrence of `pat`. -/
def removeAll (pat cs : List Char) : List Char := removeAllAux pat cs.length cs

/-- Model of `get_date_from_filename` from `parser.py`: the first `YYYY-MM-DD`-shaped
substring of the filename, else the filename with `.md` removed
(`filename.replace('.md', '')`). -/
def get_date_from_filename (filename : String) : String :=
  match findDateIdx filename.data with
  | some i => ⟨(filename.data.drop i).take 10⟩
  | none => ⟨removeAll ".md".data filename.data⟩

/-- When no position matches the date shape, the search fails. -/
theorem findDateIdx_eq_none {cs : List Char}
    (h : ∀ i, dateShapeAt (cs.drop i) = false) : findDateIdx cs = none := by
  induction cs with
  | nil => rfl
  | cons c t ih =>
    unfold findDateIdx
    rw [if_neg (by simpa using h 0), ih fun i => by simpa using h (i + 1)]
    rfl

/-- When position `i` matches the date shape and no earlier position does, the
search returns `i`. -/
theorem findDateIdx_eq_some {cs : List Char} {i : Nat}
    (hi : dateShapeAt (cs.drop i) = true)
    (hmin : ∀ j, j < i → dateShapeAt (cs.drop j) = false) :
    findDateIdx cs = some i := by
  induction cs generalizing i with
  | nil => simp [List.drop_nil] at hi; exact absurd hi (by simp [dateShapeAt])
  | cons c t ih =>
    unfold findDateIdx
    match i with
    | 0 => rw [if_pos (by simpa using hi)]
    | k + 1 =>
      rw [if_neg (by simpa using hmin 0 (Nat.succ_pos k))]
      rw [ih (by simpa using hi) fun j hj => by simpa using hmin (j + 1) (by omega)]
      rfl

/-- Claim C6 counterexample: the filename "notes.txt" contains no
`YYYY-MM-DD` substring, yet its date key keeps the ".txt" extension: the code
only removes ".md", it does not strip the extension. -/
theorem C6_counterexample :
    get_date_from_filename "notes.txt" = "notes.txt" ∧ "notes.txt" ≠ "notes" := by
  exact ⟨rfl, by decide⟩

/-- Claim C6 amended: with no `YYYY-MM-DD`-shaped substring in the filename,
the date key is the filename with every occurrence of ".md" removed (not a
general extension strip); with such a substring present, the key is the
leftmost one. -/
theorem C6_date_key :
    (∀ fn : String, (∀ i, dateShapeAt (fn.data.drop i) = false) →
      get_date_from_filename fn = ⟨removeAll ".md".data fn.data⟩) ∧
    (∀ (fn : String) (i : Nat), dateShapeAt (fn.data.drop i) = true →
      (∀ j, j < i → dateShapeAt (fn.data.drop j) = false) →
      get_date_from_filename fn = ⟨(fn.data.drop i).take 10⟩) := by
  constructor
  · intro fn h
    unfold get_date_from_filename
    rw [findDateIdx_eq_none h]
  · intro fn i hi hmin
    unfold get_date_from_filename
    rw [findDateIdx_eq_some hi hmin]

/-- Concrete instantiation of `C6_date_key`: a filename with no date keeps its
non-md extension; a filename with a date maps to the leftmost date substring. -/
theorem C6_date_key_witness :
    get_date_from_filename "notes.md.txt" = ("notes.md.txt".data |> removeAll ".md".data |> String.mk) ∧
    get_date_from_filename "log-2025-07-15.md" = ⟨("log-2025-07-15.md".data.drop 4).take 10⟩ := by
  constructor
  · refine C6_date_key.1 "notes.md.txt" ?_
    intro i
    by_cases h : i < 12
    · interval_cases i <;> rfl
    · rw [List.drop_eq_nil_of_le (by simp; omega)]
      rfl
  · exact C6_date_key.2 "log-2025-07-15.md" 4 rfl (by decide)

/-- Python `str.split('\n')`: split at every newline, keeping empty pieces. -/
def splitLines : List Char → List (List Char)
  | [] => [[]]
  | c :: t =>
    if c = '\n' then [] :: splitLines t
    else
      match splitLines t with
      | l :: ls => (c :: l) :: ls
      | [] => [[c]]

/-- Lazy body of regex `\[(.*?)\]` starting right after a `[`: the characters
up to the first `]`, or `none` when no `]` follows. -/
def takeUntilRB : List Char → Option (List Char)
  | [] => none
  | c :: t => if c = ']' then some [] else (takeUntilRB t).map (c :: ·)

/-- Model of `re.search` with pattern `\[(.*?)\]` on a line: inner text of the leftmost bracketed
span.  The leftmost possible start is the first `[`; if no `]` follows it,
no later start can match either. -/
def findBracketInner : List Char → Option (List Char)
  | [] => none
  | c :: t => if c = '[' then takeUntilRB t else findBracketInner t

/-- Model of the bullet-marker `re.sub` of the source: drop one leading list marker and the
whitespace around it, when the first non-whitespace character is a marker. -/
def stripBullet (cs : List Char) : List Char :=
  match cs.dropWhile isPyWs with
  | c :: t => if c = '-' || c = '*' || c = '+' then t.dropWhile isPyWs else cs
  | [] => cs

/-- Model of the numbered-marker `re.sub` of the source: drop a leading numbered-list marker
`N.` and the whitespace around it, when present. -/
def stripNumMarker (cs : List Char) : List Char :=
  let r := cs.dropWhile isPyWs
  if (r.takeWhile Char.isDigit) = [] then cs
  else
    match r.dropWhile Char.isDigit with
    | c :: t => if c = '.' then t.dropWhile isPyWs else cs
    | [] => cs

/-- Per-line processing of `parse_section_entries`: strip, skip blank and
heading lines, strip list markers, then split off the first bracketed span as
the comment, removing every occurrence of the full span from the line. -/
def processLine (line : List Char) : List (String × String) :=
  let l1 := pyStrip line
  if l1 = [] then []
  else if l1.head? = some '#' then []
  else
    let l2 := stripNumMarker (stripBullet l1)
    if l2 = [] then []
    else
      match findBracketInner l2 with
      | some inner =>
        let txt := pyStrip (removeAll ('[' :: inner ++ [']']) l2)
        if txt = [] then [] else [(⟨txt⟩, ⟨inner⟩)]
      | none => [(⟨l2⟩, "")]

/-- Model of `parse_section_entries` from `parser.py`. -/
def parse_section_entries (s : String) : List (String × String) :=
  ((splitLines s.data).map processLine).flatten

/-- Claim C3 counterexample: on the line "a [x] b [x]" the code removes BOTH
occurrences of the first span "[x]" (Python `str.replace` replaces all
occurrences), so the item text is "a  b" and not the claimed "a  b [x]" that
would keep the later identical span. -/
theorem C3_counterexample :
    parse_section_entries "a [x] b [x]" = [("a  b", "x")] ∧
      ("a  b" : String) ≠ "a  b [x]" := by
  exact ⟨rfl, by decide⟩

/-- A newline-free character list splits into a single line. -/
theorem splitLines_no_newline {cs : List Char} (h : '\n' ∉ cs) :
    splitLines cs = [cs] := by
  induction cs with
  | nil => rfl
  | cons c t ih =>
    unfold splitLines
    rw [if_neg (by intro hc; exact h (hc ▸ List.mem_cons_self c t)),
      ih (fun hm => h (List.mem_cons_of_mem c hm))]

/-- The lazy span body stops at the first closing bracket. -/
theorem takeUntilRB_append {inner : List Char} (post : List Char)
    (h : ']' ∉ inner) : takeUntilRB (inner ++ ']' :: post) = some inner := by
  induction inner with
  | nil => simp [takeUntilRB]
  | cons c t ih =>
    have hc : c ≠ ']' := fun hc => h (hc ▸ List.mem_cons_self c t)
    have ih2 := ih fun hm => h (List.mem_cons_of_mem c hm)
    rw [List.cons_append]
    simp only [takeUntilRB, if_neg hc, ih2, Option.map_some]
    rfl

/-- The leftmost bracketed span of a line presented with an explicit
decomposition. -/
theorem findBracketInner_decomp {pre inner : List Char} (post : List Char)
    (hpre : '[' ∉ pre) (hinn : ']' ∉ inner) :
    findBracketInner (pre ++ '[' :: (inner ++ ']' :: post)) = some inner := by
  induction pre with
  | nil =>
    unfold findBracketInner
    simp only [List.nil_append, if_pos rfl]
    exact takeUntilRB_append post hinn
  | cons c t ih =>
    have hc : c ≠ '[' := fun hc => hpre (hc ▸ List.mem_cons_self c t)
    rw [List.cons_append]
    simp only [findBracketInner, if_neg hc]
    exact ih fun hm => hpre (List.mem_cons_of_mem c hm)

/-- Claim C3 amended: for a clean line (already stripped, not a heading, no
leading list marker) containing a bracketed span, the comment is the inner
text of the FIRST span, and the item text is the line with EVERY occurrence
of that exact span removed (`str.replace` removes all occurrences) and
trimmed; the item is dropped when the removal leaves nothing. -/
theorem C3_bracket_comment (pre inner post line : List Char)
    (hline : line = pre ++ '[' :: (inner ++ ']' :: post))
    (hpre : '[' ∉ pre) (hinn : ']' ∉ inner) (hnl : '\n' ∉ line)
    (hstrip : pyStrip line = line) (hhead : line.head? ≠ some '#')
    (hbul : stripBullet line = line) (hnum : stripNumMarker line = line) :
    parse_section_entries ⟨line⟩ =
      (if pyStrip (removeAll ('[' :: inner ++ [']']) line) = [] then []
       else [(⟨pyStrip (removeAll ('[' :: inner ++ [']']) line)⟩, ⟨inner⟩)]) := by
  have hne : line ≠ [] := by subst hline; cases pre <;> simp
  unfold parse_section_entries
  rw [show (String.mk line).data = line from rfl, splitLines_no_newline hnl]
  simp only [List.map, List.flatten, List.append_nil]
  unfold processLine
  rw [hstrip]
  rw [if_neg hne, if_neg hhead, hbul, hnum, if_neg hne]
  rw [hline, findBracketInner_decomp post hpre hinn, ← hline]

/-- Concrete instantiation of `C3_bracket_comment`: a later span with
different text survives in the item text. -/
theorem C3_bracket_comment_witness :
    parse_section_entries "a [x] b [y]" =
      (if pyStrip (removeAll ('[' :: "x".data ++ [']']) "a [x] b [y]".data) = [] then []
       else [(⟨pyStrip (removeAll ('[' :: "x".data ++ [']']) "a [x] b [y]".data)⟩,
              ⟨"x".data⟩)]) :=
  C3_bracket_comment "a ".data "x".data " b [y]".data "a [x] b [y]".data rfl
    (by decide) (by decide) (by decide) rfl (by decide) rfl rfl

/-- The four entry categories of `parse_entry_sections`, in the insertion
order of the `section_patterns` dict of the source. -/
inductive Cat : Type
  | accomplished
  | blockers
  | learned
  | improve
deriving DecidableEq

/-- The categories in source dict order. -/
def allCats : List Cat := [.accomplished, .blockers, .learned, .improve]

/-- The emoji of each category heading pattern, as written in the source
regexes. -/
def catEmoji : Cat → Char
  | .accomplished => Char.ofNat 0x2705
  | .blockers => Char.ofNat 0x1F914
  | .learned => Char.ofNat 0x1F4DA
  | .improve => Char.ofNat 0x1F680

/-- Apostrophe character, used in the blockers label. -/
def apos : Char := Char.ofNat 39

/-- Literal label text of each category heading pattern. -/
def catLabel : Cat → List Char
  | .accomplished => "What I accomplished".data
  | .blockers => "What didn".data ++ apos :: "t go well / blockers".data
  | .learned => "What I learned".data
  | .improve => "What to improve".data

/-- Count and remainder of a greedy `\s*`. -/
def skipWsCount : List Char → Nat × List Char
  | [] => (0, [])
  | c :: t => if isPyWs c then let r := skipWsCount t; (r.1 + 1, r.2) else (0, c :: t)

/-- Case-insensitive literal match of a pattern against a prefix of the
input, returning the remainder on success (`re.IGNORECASE` on ASCII). -/
def matchCI : List Char → List Char → Option (List Char)
  | [], rest => some rest
  | _ :: _, [] => none
  | p :: ps, c :: cs => if lowerAscii p = lowerAscii c then matchCI ps cs else none

/-- Match of the category pattern `##\s*<emoji>\s*<label>` at the head of the
input (`re.IGNORECASE`), returning the number of characters consumed. -/
def matchCatAt (p : Cat) : List Char → Option Nat
  | a :: b :: r0 =>
    if a = '#' ∧ b = '#' then
      let s1 := skipWsCount r0
      match s1.2 with
      | e :: r2 =>
        if e = catEmoji p then
          let s2 := skipWsCount r2
          match matchCI (catLabel p) s2.2 with
          | some _ => some (2 + s1.1 + 1 + s2.1 + (catLabel p).length)
          | none => none
        else none
      | [] => none
    else none
  | _ => none

/-- Model of `re.search` for a category pattern: leftmost match as (start index,
consumed length). -/
def findCat (p : Cat) : List Char → Option (Nat × Nat)
  | [] => none
  | c :: t =>
    match matchCatAt p (c :: t) with
    | some n => some (0, n)
    | none => (findCat p t).map (fun r => (r.1 + 1, r.2))

/-- Section-body extraction of `parse_entry_sections` for one category: the
text from the end of the heading match of the category to the earliest later match
of another category pattern (or end of content), stripped. -/
def extractSection (p : Cat) (content : List Char) : Option (List Char) :=
  match findCat p content with
  | none => none
  | some r =>
    let startPos := r.1 + r.2
    let tail := content.drop startPos
    let nextPos := (allCats.filter (fun q => q ≠ p)).foldl
      (fun acc q =>
        match findCat q tail with
        | some s => min acc (startPos + s.1)
        | none => acc) content.length
    some (pyStrip ((content.drop startPos).take (nextPos - startPos)))

/-- Model of `parse_entry_sections` from `parser.py`, as a function from the category
to its entry list (the source returns the four lists in a dict). -/
def parse_entry_sections (content : String) (p : Cat) : List (String × String) :=
  match extractSection p content.data with
  | none => []
  | some body => parse_section_entries ⟨body⟩

/-- Claim C2 counterexample: a markdown heading containing the label "What I
accomplished" is NOT located when the emoji is absent or is a different emoji
(here U+1F525): the category patterns require their specific emoji. -/
theorem C2_counterexample :
    parse_entry_sections "## What I accomplished\n- item" Cat.accomplished = [] ∧
    parse_entry_sections
      (⟨'#' :: '#' :: ' ' :: Char.ofNat 0x1F525 ::
        " What I accomplished\n- item".data⟩) Cat.accomplished = [] ∧
    ([] : List (String × String)) ≠ [("item", "")] := by
  exact ⟨rfl, rfl, by decide⟩

/-- The remainder left by a greedy whitespace skip is made of characters of
the input. -/
theorem skipWsCount_mem {cs : List Char} {x : Char}
    (h : x ∈ (skipWsCount cs).2) : x ∈ cs := by
  induction cs with
  | nil => simp [skipWsCount] at h
  | cons c t ih =>
    by_cases hc : isPyWs c
    · simp only [skipWsCount, if_pos hc] at h
      exact List.mem_cons_of_mem c (ih h)
    · simpa [skipWsCount, hc] using h

/-- A successful category-pattern match requires the emoji of the category to be
present in the input. -/
theorem matchCatAt_emoji_mem {p : Cat} {cs : List Char} {n : Nat}
    (h : matchCatAt p cs = some n) : catEmoji p ∈ cs := by
  match cs with
  | [] => exact Option.noConfusion h
  | [a] => exact Option.noConfusion h
  | a :: b :: r0 =>
    simp only [matchCatAt] at h
    split at h
    next hab =>
      split at h
      next e r2 heq =>
        split at h
        next he =>
          have hm : catEmoji p ∈ (skipWsCount r0).2 := by
            rw [heq]; exact List.mem_cons.mpr (Or.inl he.symm)
          exact List.mem_cons_of_mem a (List.mem_cons_of_mem b (skipWsCount_mem hm))
        next he => exact Option.noConfusion h
      next heq => exact Option.noConfusion h
    next hab => exact Option.noConfusion h

/-- A successful category search requires the emoji of the category to be present. -/
theorem findCat_emoji_mem {p : Cat} {cs : List Char} {r : Nat × Nat}
    (h : findCat p cs = some r) : catEmoji p ∈ cs := by
  induction cs generalizing r with
  | nil => exact Option.noConfusion h
  | cons c t ih =>
    simp only [findCat] at h
    rcases hm : matchCatAt p (c :: t) with _ | n
    · rw [hm] at h
      rcases hf : findCat p t with _ | s
      · rw [hf] at h; exact Option.noConfusion h
      · exact List.mem_cons_of_mem c (ih hf)
    · exact matchCatAt_emoji_mem hm

/-- Claim C2 amended: locating a category heading requires the specific emoji of the category from the source pattern (with `##` and optional whitespace
around the emoji); the label itself is matched case-insensitively.  A
document without the emoji yields an empty section even when it contains the
label; with the emoji the heading is located. -/
theorem C2_emoji_required :
    (∀ content : String, Char.ofNat 0x2705 ∉ content.data →
      parse_entry_sections content Cat.accomplished = []) ∧
    parse_entry_sections
      (⟨'#' :: '#' :: ' ' :: Char.ofNat 0x2705 ::
        " what i ACCOMPLISHED\n- item".data⟩) Cat.accomplished = [("item", "")] := by
  constructor
  · intro content h
    unfold parse_entry_sections
    rcases hf : findCat Cat.accomplished content.data with _ | r
    · unfold extractSection
      rw [hf]
    · exact absurd (findCat_emoji_mem hf) h
  · rfl

/-- Concrete instantiation of the universally quantified part of
`C2_emoji_required`: a document with the label but no check-mark emoji has an
empty accomplished section. -/
theorem C2_emoji_required_witness :
    parse_entry_sections "# Journal\n## What I accomplished\n- a\n- b" Cat.accomplished = [] :=
  C2_emoji_required.1 "# Journal\n## What I accomplished\n- a\n- b" (by decide)

/-- The part of a well-formed category heading line after the `##`. -/
def headingTail (p : Cat) : List Char :=
  ' ' :: catEmoji p :: ' ' :: (catLabel p ++ ['\n'])

/-- A well-formed category heading line
`## <emoji> <label>` followed by its newline. -/
def headingFull (p : Cat) : List Char := '#' :: '#' :: headingTail p

/-- The prefix of `headingFull` that the category pattern consumes (up to the
end of the label). -/
def headPre (p : Cat) : List Char :=
  '#' :: '#' :: ' ' :: catEmoji p :: ' ' :: catLabel p

/-- Number of characters the pattern consumes on a well-formed heading. -/
def catMatchLen (p : Cat) : Nat := 5 + (catLabel p).length

/-- A well-formed heading is the consumed prefix plus its newline. -/
theorem headingFull_decomp (p : Cat) : headingFull p = headPre p ++ ['\n'] := by
  simp [headingFull, headingTail, headPre]

/-- Length of the consumed prefix. -/
theorem headPre_length (p : Cat) : (headPre p).length = catMatchLen p := by
  simp [headPre, catMatchLen]; omega

/-- Matching a category pattern at a well-formed heading succeeds exactly for
the heading's own category and consumes through the end of the label. -/
theorem matchCatAt_heading (p q : Cat) (rest : List Char) :
    matchCatAt p (headingFull q ++ rest) =
      if p = q then some (catMatchLen p) else none := by
  cases p <;> cases q <;> rfl

/-- The pattern fails at any position not starting with `##`. -/
theorem matchCatAt_not_hash {a b : Char} (p : Cat) (r : List Char)
    (h : ¬(a = '#' ∧ b = '#')) : matchCatAt p (a :: b :: r) = none := by
  simp only [matchCatAt, if_neg h]

/-- The pattern fails at `#` followed by a non-`#`. -/
theorem matchCatAt_hash_nonhash {a : Char} (p : Cat) (h : a ≠ '#') (r : List Char) :
    matchCatAt p ('#' :: a :: r) = none :=
  matchCatAt_not_hash p r (fun hh => h hh.2)

/-- Searching in `xs ++ rest` where `xs` has no `#` only shifts the result of
searching in `rest`. -/
theorem findCat_append_nohash (xs : List Char) (p : Cat) (rest : List Char)
    (h : '#' ∉ xs) :
    findCat p (xs ++ rest) = (findCat p rest).map (fun r => (r.1 + xs.length, r.2)) := by
  induction xs with
  | nil => simp
  | cons c t ih =>
    have hc : c ≠ '#' := fun hc => h (hc ▸ List.mem_cons_self c t)
    have hm : matchCatAt p (c :: (t ++ rest)) = none := by
      cases htr : t ++ rest with
      | nil => rfl
      | cons d u => exact matchCatAt_not_hash p u (fun hh => hc hh.1)
    rw [List.cons_append]
    simp only [findCat, hm]
    rw [ih (fun hm2 => h (List.mem_cons_of_mem c hm2))]
    cases findCat p rest with
    | none => rfl
    | some r => simp [Nat.add_assoc]

/-- One step of the search when the head position does not match. -/
theorem findCat_cons_none {p : Cat} {c : Char} {t : List Char}
    (h : matchCatAt p (c :: t) = none) :
    findCat p (c :: t) = (findCat p t).map (fun r => (r.1 + 1, r.2)) := by
  simp only [findCat, h]

/-- One step of the search when the head position matches. -/
theorem findCat_cons_some {p : Cat} {c : Char} {t : List Char} {n : Nat}
    (h : matchCatAt p (c :: t) = some n) :
    findCat p (c :: t) = some (0, n) := by
  simp only [findCat, h]

/-- Search finds the own heading of a category at position 0. -/
theorem findCat_heading_found (p : Cat) (rest : List Char) :
    findCat p (headingFull p ++ rest) = some (0, catMatchLen p) := by
  have e1 : headingFull p ++ rest = '#' :: ('#' :: (headingTail p ++ rest)) := rfl
  have hm : matchCatAt p ('#' :: ('#' :: (headingTail p ++ rest))) = some (catMatchLen p) := by
    rw [← e1, matchCatAt_heading p p rest, if_pos rfl]
  rw [e1, findCat_cons_some hm]

/-- Skipping a whole block (the heading of a different category plus a `#`-free
body): the search result is shifted by the block length. -/
theorem findCat_block_skip {p q : Cat} (hpq : p ≠ q) {b : List Char} (hb : '#' ∉ b)
    (rest : List Char) :
    findCat p ((headingFull q ++ b) ++ rest) =
      (findCat p rest).map
        (fun r => (r.1 + ((headingFull q).length + b.length), r.2)) := by
  have e1 : (headingFull q ++ b) ++ rest =
      '#' :: ('#' :: ((headingTail q ++ b) ++ rest)) := by
    simp [headingFull, List.append_assoc]
  have hm0 : matchCatAt p ('#' :: ('#' :: ((headingTail q ++ b) ++ rest))) = none := by
    have : (headingTail q ++ b) ++ rest = headingTail q ++ (b ++ rest) := by
      rw [List.append_assoc]
    rw [this, show ('#' :: ('#' :: (headingTail q ++ (b ++ rest)))) =
          headingFull q ++ (b ++ rest) from rfl,
      matchCatAt_heading p q (b ++ rest), if_neg hpq]
  have e2 : (headingTail q ++ b) ++ rest =
      ' ' :: ((catEmoji q :: ' ' :: (catLabel q ++ ['\n']) ++ b) ++ rest) := by
    rw [show headingTail q = ' ' :: (catEmoji q :: ' ' :: (catLabel q ++ ['\n'])) from rfl]
    simp [List.append_assoc]
  have hm1 : matchCatAt p ('#' :: ((headingTail q ++ b) ++ rest)) = none := by
    rw [e2]
    exact matchCatAt_hash_nonhash p (by decide) _
  have hnh : '#' ∉ headingTail q ++ b := by
    intro hmem
    rcases List.mem_append.mp hmem with hmem | hmem
    · revert hmem; cases q <;> decide
    · exact hb hmem
  rw [e1, findCat_cons_none hm0, findCat_cons_none hm1,
    findCat_append_nohash (headingTail q ++ b) p rest hnh]
  cases findCat p rest with
  | none => rfl
  | some r =>
    have hl : (headingFull q).length = (headingTail q).length + 2 := by
      simp [headingFull]
    simp only [Option.map_some', Option.some.injEq, Prod.mk.injEq, List.length_append]
    exact ⟨by omega, trivial⟩

/-- A document assembled from blocks, each a well-formed category heading
followed by the body text of that block. -/
def docBlocks : List (Cat × List Char) → List Char
  | [] => []
  | pr :: t => (headingFull pr.1 ++ pr.2) ++ docBlocks t

/-- Lemma: `docBlocks` distributes over append. -/
theorem docBlocks_append (bs cs : List (Cat × List Char)) :
    docBlocks (bs ++ cs) = docBlocks bs ++ docBlocks cs := by
  induction bs with
  | nil => rfl
  | cons pr t ih => simp [docBlocks, ih]

/-- Skipping a list of blocks none of which is for `p` and whose bodies are
`#`-free. -/
theorem findCat_blocks_skip {p : Cat} {bs : List (Cat × List Char)}
    (hp : ∀ pr ∈ bs, pr.1 ≠ p) (hb : ∀ pr ∈ bs, '#' ∉ pr.2) (rest : List Char) :
    findCat p (docBlocks bs ++ rest) =
      (findCat p rest).map (fun r => (r.1 + (docBlocks bs).length, r.2)) := by
  induction bs with
  | nil => simp [docBlocks]
  | cons pr t ih =>
    rw [show docBlocks (pr :: t) = (headingFull pr.1 ++ pr.2) ++ docBlocks t from rfl,
      List.append_assoc,
      findCat_block_skip (fun h => (hp pr (List.mem_cons_self pr t)) h.symm)
        (hb pr (List.mem_cons_self pr t)) (docBlocks t ++ rest),
      ih (fun x hx => hp x (List.mem_cons_of_mem pr hx))
        (fun x hx => hb x (List.mem_cons_of_mem pr hx))]
    cases findCat p rest with
    | none => rfl
    | some r =>
      simp only [Option.map_some', Option.some.injEq, Prod.mk.injEq,
        List.length_append]
      exact ⟨by omega, trivial⟩

/-- Locating the block of category `p` in an assembled document. -/
theorem findCat_doc {pre post : List (Cat × List Char)} {p : Cat} {b : List Char}
    (hpre1 : ∀ pr ∈ pre, pr.1 ≠ p) (hpre2 : ∀ pr ∈ pre, '#' ∉ pr.2) :
    findCat p (docBlocks (pre ++ (p, b) :: post)) =
      some ((docBlocks pre).length, catMatchLen p) := by
  rw [docBlocks_append, findCat_blocks_skip hpre1 hpre2,
    show docBlocks ((p, b) :: post) = headingFull p ++ (b ++ docBlocks post) from by
      rw [show docBlocks ((p, b) :: post) = (headingFull p ++ b) ++ docBlocks post from rfl,
        List.append_assoc],
    findCat_heading_found]
  simp

/-- The minimum fold of `extractSection` when no other pattern is found. -/
theorem foldMin_none {tl : List Char} {sp : Nat} {L : List Cat} {a : Nat}
    (h : ∀ q ∈ L, findCat q tl = none) :
    L.foldl (fun acc q => match findCat q tl with
      | some s => min acc (sp + s.1)
      | none => acc) a = a := by
  induction L generalizing a with
  | nil => rfl
  | cons q t ih =>
    simp only [List.foldl_cons]
    rw [h q (List.mem_cons_self q t)]
    exact ih fun x hx => h x (List.mem_cons_of_mem q hx)

/-- The minimum fold never exceeds its initial value. -/
theorem foldMin_le_acc {tl : List Char} {sp : Nat} {L : List Cat} {a : Nat} :
    L.foldl (fun acc q => match findCat q tl with
      | some s => min acc (sp + s.1)
      | none => acc) a ≤ a := by
  induction L generalizing a with
  | nil => exact le_refl a
  | cons q t ih =>
    simp only [List.foldl_cons]
    rcases hq : findCat q tl with _ | s
    · exact ih
    · exact le_trans ih (min_le_left a (sp + s.1))

/-- The minimum fold stays above any common lower bound of the initial value
and all found candidates. -/
theorem foldMin_ge {tl : List Char} {sp : Nat} {L : List Cat} {a V : Nat}
    (ha : V ≤ a) (hall : ∀ q ∈ L, ∀ s, findCat q tl = some s → V ≤ sp + s.1) :
    V ≤ L.foldl (fun acc q => match findCat q tl with
      | some s => min acc (sp + s.1)
      | none => acc) a := by
  induction L generalizing a with
  | nil => exact ha
  | cons q t ih =>
    simp only [List.foldl_cons]
    rcases hq : findCat q tl with _ | s
    · exact ih ha fun x hx => hall x (List.mem_cons_of_mem q hx)
    · exact ih (le_min ha (hall q (List.mem_cons_self q t) s hq))
        fun x hx => hall x (List.mem_cons_of_mem q hx)

/-- The minimum fold is at most any found candidate. -/
theorem foldMin_le_hit {tl : List Char} {sp : Nat} {L : List Cat} {a : Nat}
    {q : Cat} {s : Nat × Nat} (hq : q ∈ L) (hs : findCat q tl = some s) :
    L.foldl (fun acc q => match findCat q tl with
      | some s => min acc (sp + s.1)
      | none => acc) a ≤ sp + s.1 := by
  induction L generalizing a with
  | nil => exact absurd hq (List.not_mem_nil q)
  | cons q' t ih =>
    simp only [List.foldl_cons]
    rcases List.mem_cons.mp hq with rfl | hmem
    · rw [hs]
      exact le_trans foldMin_le_acc (min_le_right a (sp + s.1))
    · rcases hq' : findCat q' tl with _ | s'
      · exact ih hmem
      · exact ih hmem

/-- Every category is in the category list. -/
theorem mem_allCats (q : Cat) : q ∈ allCats := by cases q <;> decide

/-- Stripping drops a leading whitespace character. -/
theorem pyStrip_cons_ws {c : Char} (h : isPyWs c = true) (cs : List Char) :
    pyStrip (c :: cs) = pyStrip cs := by
  simp [pyStrip, stripLeft, List.dropWhile_cons, h]

/-- Decomposition of an assembled document around the block of `p`. -/
theorem docBlocks_decomp (pre post : List (Cat × List Char)) (p : Cat) (b : List Char) :
    docBlocks (pre ++ (p, b) :: post) =
      (docBlocks pre ++ headPre p) ++ ('\n' :: (b ++ docBlocks post)) := by
  rw [docBlocks_append,
    show docBlocks ((p, b) :: post) = (headingFull p ++ b) ++ docBlocks post from rfl,
    headingFull_decomp]
  simp [List.append_assoc]

/-- The body `extractSection` computes for `p` on an assembled document whose
headings are well-formed, whose bodies are `#`-free, and in which the block of `p`
occurs exactly once, is the stripped body of that block — independent of
where the block sits. -/
theorem extractSection_blocks {pre post : List (Cat × List Char)} {p : Cat} {b : List Char}
    (hpre1 : ∀ pr ∈ pre, pr.1 ≠ p) (hpost1 : ∀ pr ∈ post, pr.1 ≠ p)
    (hpre2 : ∀ pr ∈ pre, '#' ∉ pr.2) (hb : '#' ∉ b) :
    extractSection p (docBlocks (pre ++ (p, b) :: post)) = some (pyStrip b) := by
  have hXlen : (docBlocks pre ++ headPre p).length =
      (docBlocks pre).length + catMatchLen p := by
    simp [headPre_length]
  have hdrop : (docBlocks (pre ++ (p, b) :: post)).drop
      ((docBlocks pre).length + catMatchLen p) = '\n' :: (b ++ docBlocks post) := by
    rw [docBlocks_decomp, ← hXlen, List.drop_left]
  have hdoclen : (docBlocks (pre ++ (p, b) :: post)).length =
      ((docBlocks pre).length + catMatchLen p) + (1 + (b ++ docBlocks post).length) := by
    rw [docBlocks_decomp]
    simp only [List.length_append, List.length_cons, hXlen]
    omega
  simp only [extractSection, findCat_doc hpre1 hpre2]
  rw [hdrop]
  cases post with
  | nil =>
    have hnone : ∀ q ∈ allCats.filter (fun q => q ≠ p),
        findCat q ('\n' :: (b ++ docBlocks [])) = none := by
      intro q _
      have h0 := findCat_append_nohash ('\n' :: b) q []
        (by
          intro hmem
          rcases List.mem_cons.mp hmem with h | h
          · exact absurd h (by decide)
          · exact hb h)
      simpa [docBlocks] using h0
    rw [foldMin_none hnone, hdoclen]
    have htake : ((docBlocks pre).length + catMatchLen p) +
        (1 + (b ++ docBlocks ([] : List (Cat × List Char))).length) -
        ((docBlocks pre).length + catMatchLen p) =
        (b ++ docBlocks ([] : List (Cat × List Char))).length + 1 := by omega
    rw [htake]
    rw [show ('\n' :: (b ++ docBlocks [])).take ((b ++ docBlocks ([] : List (Cat × List Char))).length + 1) =
        '\n' :: ((b ++ docBlocks []).take (b ++ docBlocks ([] : List (Cat × List Char))).length) from rfl]
    rw [List.take_length]
    have hws : isPyWs '\n' = true := by decide
    simp only [docBlocks, List.append_nil, pyStrip_cons_ws hws]
  | cons pr post' =>
    obtain ⟨q0, b0⟩ := pr
    have hq0p : q0 ≠ p := hpost1 (q0, b0) (List.mem_cons_self _ _)
    have hblocks0 : docBlocks ((q0, b0) :: post') =
        headingFull q0 ++ (b0 ++ docBlocks post') := by
      rw [show docBlocks ((q0, b0) :: post') =
        (headingFull q0 ++ b0) ++ docBlocks post' from rfl, List.append_assoc]
    have htail : ∀ q1 : Cat, findCat q1 ('\n' :: (b ++ docBlocks ((q0, b0) :: post'))) =
        (findCat q1 (docBlocks ((q0, b0) :: post'))).map
          (fun r => (r.1 + (b.length + 1), r.2)) := by
      intro q1
      have h0 := findCat_append_nohash ('\n' :: b) q1 (docBlocks ((q0, b0) :: post'))
        (by
          intro hmem
          rcases List.mem_cons.mp hmem with h | h
          · exact absurd h (by decide)
          · exact hb h)
      simpa using h0
    have hhit : findCat q0 ('\n' :: (b ++ docBlocks ((q0, b0) :: post'))) =
        some (b.length + 1, catMatchLen q0) := by
      rw [htail q0, hblocks0, findCat_heading_found]
      simp
    have hfold : (allCats.filter (fun q => q ≠ p)).foldl
        (fun acc q => match findCat q ('\n' :: (b ++ docBlocks ((q0, b0) :: post'))) with
          | some s => min acc (((docBlocks pre).length + catMatchLen p) + s.1)
          | none => acc) (docBlocks (pre ++ (p, b) :: ((q0, b0) :: post'))).length =
        ((docBlocks pre).length + catMatchLen p) + (b.length + 1) := by
      apply le_antisymm
      · have hmem0 : q0 ∈ allCats.filter (fun q => q ≠ p) :=
          List.mem_filter.mpr ⟨mem_allCats q0, by simpa using hq0p⟩
        exact foldMin_le_hit hmem0 hhit
      · apply foldMin_ge
        · rw [hdoclen]
          simp only [List.length_append]
          omega
        · intro q1 _ s hs
          rw [htail q1] at hs
          rcases hf : findCat q1 (docBlocks ((q0, b0) :: post')) with _ | r
          · rw [hf] at hs; exact Option.noConfusion hs
          · rw [hf] at hs
            simp only [Option.map_some', Option.some.injEq] at hs
            subst hs
            simp only []
            omega
    rw [hfold]
    have htake2 : ((docBlocks pre).length + catMatchLen p) + (b.length + 1) -
        ((docBlocks pre).length + catMatchLen p) = b.length + 1 := by omega
    rw [htake2,
      show ('\n' :: (b ++ docBlocks ((q0, b0) :: post'))).take (b.length + 1) =
        '\n' :: ((b ++ docBlocks ((q0, b0) :: post')).take b.length) from rfl,
      show (b ++ docBlocks ((q0, b0) :: post')).take b.length = b from List.take_left b _]
    have hws : isPyWs '\n' = true := by decide
    rw [pyStrip_cons_ws hws]

/-- Claim C5: section extraction is heading-order-independent.  For any
assembly of the four category blocks (each category exactly once, bodies free
of `#`), every permutation of the block order yields the same extracted body
for each category — the own stripped body of the block — and hence the same item
lists. -/
theorem C5_order_independence (l : List Cat) (bodies : Cat → List Char)
    (hperm : l.Perm allCats) (hb : ∀ c : Cat, '#' ∉ bodies c) (c : Cat) :
    parse_entry_sections ⟨docBlocks (l.map (fun d => (d, bodies d)))⟩ c =
      parse_section_entries ⟨pyStrip (bodies c)⟩ := by
  have hc : c ∈ l := hperm.mem_iff.mpr (mem_allCats c)
  have hnd : l.Nodup := hperm.nodup_iff.mpr (by decide)
  obtain ⟨l1, l2, rfl⟩ := List.append_of_mem hc
  obtain ⟨h1, h2, hdisj⟩ := List.nodup_append.mp hnd
  have hc1 : c ∉ l1 := fun hm => (hdisj hm) (List.mem_cons_self c l2)
  have hc2 : c ∉ l2 := (List.nodup_cons.mp h2).1
  unfold parse_entry_sections
  rw [show (String.mk (docBlocks ((l1 ++ c :: l2).map fun d => (d, bodies d)))).data
      = docBlocks ((l1 ++ c :: l2).map fun d => (d, bodies d)) from rfl,
    List.map_append, List.map_cons,
    extractSection_blocks
      (by
        intro pr hpr
        obtain ⟨d, hd, rfl⟩ := List.mem_map.mp hpr
        exact fun h => hc1 (h ▸ hd))
      (by
        intro pr hpr
        obtain ⟨d, hd, rfl⟩ := List.mem_map.mp hpr
        exact fun h => hc2 (h ▸ hd))
      (by
        intro pr hpr
        obtain ⟨d, _, rfl⟩ := List.mem_map.mp hpr
        exact hb d)
      (hb c)]

/-- Concrete instantiation of `C5_order_independence`: a reversed block order
still extracts the accomplished body. -/
theorem C5_order_independence_witness :
    parse_entry_sections
      ⟨docBlocks ([Cat.improve, Cat.learned, Cat.blockers, Cat.accomplished].map
        (fun d => (d, (fun c : Cat => match c with
          | .accomplished => "- did a thing".data
          | .blockers => "- stuck on x".data
          | .learned => "- learned y".data
          | .improve => "- improve z".data) d)))⟩ Cat.accomplished =
      parse_section_entries ⟨pyStrip "- did a thing".data⟩ :=
  C5_order_independence [Cat.improve, Cat.learned, Cat.blockers, Cat.accomplished]
    (fun c : Cat => match c with
      | .accomplished => "- did a thing".data
      | .blockers => "- stuck on x".data
      | .learned => "- learned y".data
      | .improve => "- improve z".data)
    (by decide) (by intro c; cases c <;> decide) Cat.accomplished

/-- The Time Tracking heading line of the entry template. -/
def ttHead : List Char := '#' :: '#' :: ' ' :: Char.ofNat 0x23F0 :: " Time Tracking".data

/-- No category pattern matches at the Time Tracking heading: the emoji
U+23F0 differs from every category emoji. -/
theorem matchCatAt_tt (q : Cat) (r : List Char) :
    matchCatAt q ('#' :: '#' :: ' ' :: Char.ofNat 0x23F0 :: r) = none := by
  cases q <;> rfl

/-- Search fails entirely on `#`-free text. -/
theorem findCat_none_nohash (q : Cat) (cs : List Char) (h : '#' ∉ cs) :
    findCat q cs = none := by
  have h0 := findCat_append_nohash cs q [] h
  simpa using h0

/-- Lemma: `dropWhile` never lengthens a list. -/
theorem dropWhileLen (p : Char → Bool) (l : List Char) :
    (l.dropWhile p).length ≤ l.length := by
  induction l with
  | nil => simp
  | cons c t ih =>
    by_cases h : p c
    · rw [List.dropWhile_cons_of_pos h]
      exact le_trans ih (by simp)
    · rw [List.dropWhile_cons_of_neg h]

/-- A left-stripped nonempty list starts with a non-whitespace character. -/
theorem head_not_ws_of_stripLeft {d : Char} {t : List Char}
    (h : stripLeft (d :: t) = d :: t) : isPyWs d = false := by
  rcases hws : isPyWs d with _ | _
  · rfl
  · rw [stripLeft, List.dropWhile_cons_of_pos hws] at h
    have hlen := congrArg List.length h
    have hle := dropWhileLen isPyWs t
    simp only [List.length_cons] at hlen
    omega

/-- Left strip is the identity on text starting with a non-whitespace
character. -/
theorem stripLeft_cons_of_neg {c : Char} (h : isPyWs c = false) (cs : List Char) :
    stripLeft (c :: cs) = c :: cs := by
  have h2 : ¬ isPyWs c = true := by rw [h]; exact Bool.false_ne_true
  rw [stripLeft, List.dropWhile_cons_of_neg h2]

/-- Right strip is the identity on `xs ++ ys` when it is already the identity
on the nonempty `ys`. -/
theorem stripRight_append (xs ys : List Char) (hne : ys ≠ [])
    (h : stripRight ys = ys) : stripRight (xs ++ ys) = xs ++ ys := by
  have h2 : ys.reverse.dropWhile isPyWs = ys.reverse := by
    have h3 := congrArg List.reverse h
    simpa [stripRight] using h3
  have hrne : ys.reverse.isEmpty = false := by
    rcases hy : ys.reverse with _ | ⟨a, t⟩
    · exact absurd (by simpa using congrArg List.reverse hy) hne
    · rfl
  unfold stripRight
  rw [List.reverse_append, List.dropWhile_append, h2, hrne]
  simp

/-- The bracket search fails on a line without `[`. -/
theorem findBracketInner_none {cs : List Char} (h : '[' ∉ cs) :
    findBracketInner cs = none := by
  induction cs with
  | nil => rfl
  | cons c t ih =>
    have hc : c ≠ '[' := fun hc => h (hc ▸ List.mem_cons_self c t)
    simp only [findBracketInner, if_neg hc]
    exact ih fun hm => h (List.mem_cons_of_mem c hm)

/-- Lemma: `splitLines` never returns the empty list. -/
theorem splitLines_ne_nil (cs : List Char) : splitLines cs ≠ [] := by
  cases cs with
  | nil => simp [splitLines]
  | cons c t =>
    unfold splitLines
    by_cases h : c = '\n'
    · simp [h]
    · rw [if_neg h]
      cases splitLines t <;> simp

/-- Line-level form of `parse_section_entries`. -/
def pseList (cs : List Char) : List (String × String) :=
  ((splitLines cs).map processLine).flatten

/-- Equation for `parse_section_entries` on a packed character list. -/
theorem parse_section_entries_eq (cs : List Char) :
    parse_section_entries ⟨cs⟩ = pseList cs := rfl

/-- One splitting step at a newline. -/
theorem splitLines_cons_nl (t : List Char) :
    splitLines ('\n' :: t) = [] :: splitLines t := rfl

/-- One splitting step at a non-newline character. -/
theorem splitLines_cons_other {c : Char} (t : List Char) (h : c ≠ '\n') :
    splitLines (c :: t) =
      (match splitLines t with
        | l :: ls => (c :: l) :: ls
        | [] => [[c]]) := by
  rw [splitLines, if_neg h]

/-- Splitting distributes over a newline-separated concatenation. -/
theorem splitLines_append (xs ys : List Char) :
    splitLines (xs ++ '\n' :: ys) = splitLines xs ++ splitLines ys := by
  induction xs with
  | nil => simp [splitLines]
  | cons c t ih =>
    by_cases h : c = '\n'
    · subst h
      rw [List.cons_append, splitLines_cons_nl, splitLines_cons_nl, ih]
      rfl
    · rw [List.cons_append, splitLines_cons_other (t ++ '\n' :: ys) h,
        splitLines_cons_other t h, ih]
      rcases hs : splitLines t with _ | ⟨l, ls⟩
      · exact absurd hs (splitLines_ne_nil t)
      · rfl

/-- Entry parsing distributes over a newline-separated concatenation. -/
theorem pseList_append (xs ys : List Char) :
    pseList (xs ++ '\n' :: ys) = pseList xs ++ pseList ys := by
  simp [pseList, splitLines_append]

/-- Entry parsing of a labeled time-tracking line `**Start time**: <v>`: the
line is a regular item whose text keeps everything but the first `*` (eaten
as a list marker), with an empty comment. -/
theorem pseList_startline (v : List Char) (hvne : v ≠ []) (hvr : stripRight v = v)
    (hvn : '\n' ∉ v) (hvb : '[' ∉ v) :
    pseList ("**Start time**: ".data ++ v) = [(⟨"*Start time**: ".data ++ v⟩, "")] := by
  have hnl : '\n' ∉ "**Start time**: ".data ++ v := by
    intro hm
    rcases List.mem_append.mp hm with h | h
    · exact absurd h (by decide)
    · exact hvn h
  have e1 : "**Start time**: ".data ++ v = '*' :: ("*Start time**: ".data ++ v) := rfl
  have e2 : "*Start time**: ".data ++ v = '*' :: ("Start time**: ".data ++ v) := rfl
  have hstrip : pyStrip ("**Start time**: ".data ++ v) = "**Start time**: ".data ++ v := by
    unfold pyStrip
    rw [e1, stripLeft_cons_of_neg (by decide), ← e1]
    exact stripRight_append _ v hvne hvr
  have hd1 : ¬ isPyWs '*' = true := by decide
  have hd2 : ¬ ('*' : Char).isDigit = true := by decide
  have hbullet : stripBullet ("**Start time**: ".data ++ v) =
      "*Start time**: ".data ++ v := by
    unfold stripBullet
    rw [e1]
    simp only [List.dropWhile_cons_of_neg hd1]
    rw [e2]
    simp only [List.dropWhile_cons_of_neg hd1]
    rw [← e2]
    simp
  have hnum : stripNumMarker ("*Start time**: ".data ++ v) =
      "*Start time**: ".data ++ v := by
    unfold stripNumMarker
    rw [e2]
    simp only [List.dropWhile_cons_of_neg hd1, List.takeWhile_cons_of_neg hd2]
    simp
  unfold pseList
  rw [splitLines_no_newline hnl]
  simp only [List.map_cons, List.map_nil, List.flatten]
  rw [List.append_nil]
  unfold processLine
  rw [hstrip]
  rw [if_neg (by rw [e1]; exact List.cons_ne_nil _ _)]
  rw [if_neg (by rw [e1]; simp)]
  rw [hbullet, hnum]
  rw [if_neg (by rw [e2]; exact List.cons_ne_nil _ _)]
  rw [findBracketInner_none (by
    intro hm
    rcases List.mem_append.mp hm with h | h
    · exact absurd h (by decide)
    · exact hvb h)]

/-- Extraction for a document made of one category heading followed by
arbitrary content in which no category pattern occurs. -/
theorem extractSection_single (c : Cat) (X : List Char)
    (hnone : ∀ q : Cat, findCat q ('\n' :: X) = none) :
    extractSection c (headingFull c ++ X) = some (pyStrip ('\n' :: X)) := by
  have hfind := findCat_heading_found c X
  have hdrop : (headingFull c ++ X).drop (0 + catMatchLen c) = '\n' :: X := by
    rw [Nat.zero_add, headingFull_decomp, List.append_assoc, ← headPre_length c,
      List.drop_left]
    rfl
  simp only [extractSection, hfind, hdrop]
  rw [foldMin_none (fun q _ => hnone q)]
  have hlen : (headingFull c ++ X).length - (0 + catMatchLen c) = X.length + 1 := by
    rw [headingFull_decomp]
    simp only [List.length_append, List.length_cons, List.length_nil, headPre_length]
    omega
  rw [hlen, List.take_succ_cons, List.take_length]

/-- Claim C10: a Time Tracking section lying between a category heading and
the end of the document does not delimit the body of that category: its
items include everything through the Time Tracking block, with the `##`
heading line itself skipped as a heading and the labeled line
`**Start time**: <v>` parsed as an ordinary item of that category. -/
theorem C10_time_tracking_absorbed (c : Cat) (b v : List Char)
    (hb : '#' ∉ b) (hbne : b ≠ []) (hbl : stripLeft b = b)
    (hvne : v ≠ []) (hvr : stripRight v = v)
    (hvn : '\n' ∉ v) (hvh : '#' ∉ v) (hvb : '[' ∉ v) :
    parse_entry_sections
      ⟨headingFull c ++
        (b ++ '\n' :: (ttHead ++ '\n' :: ("**Start time**: ".data ++ v)))⟩ c =
      parse_section_entries ⟨b⟩ ++ [(⟨"*Start time**: ".data ++ v⟩, "")] := by
  have hfind := findCat_heading_found c
    (b ++ '\n' :: (ttHead ++ '\n' :: ("**Start time**: ".data ++ v)))
  have hnone : ∀ q : Cat, findCat q
      ('\n' :: (b ++ '\n' :: (ttHead ++ '\n' :: ("**Start time**: ".data ++ v)))) = none := by
    intro q
    have hsh : '\n' :: (b ++ '\n' :: (ttHead ++ '\n' :: ("**Start time**: ".data ++ v))) =
        ('\n' :: (b ++ ['\n'])) ++ (ttHead ++ '\n' :: ("**Start time**: ".data ++ v)) := by
      simp [List.append_assoc]
    have hws1 : '#' ∉ '\n' :: (b ++ ['\n']) := by
      intro hm
      rcases List.mem_cons.mp hm with h | hm1
      · exact absurd h (by decide)
      rcases List.mem_append.mp hm1 with h | h
      · exact hb h
      · exact absurd h (by decide)
    rw [hsh, findCat_append_nohash _ q _ hws1]
    have e2 : ttHead ++ '\n' :: ("**Start time**: ".data ++ v) =
        '#' :: '#' :: ' ' :: Char.ofNat 0x23F0 ::
          (" Time Tracking".data ++ '\n' :: ("**Start time**: ".data ++ v)) := by
      simp [ttHead]
    rw [e2, findCat_cons_none (matchCatAt_tt q _),
      findCat_cons_none (matchCatAt_hash_nonhash q (by decide) _),
      findCat_none_nohash q _ (by
        intro hm
        rcases List.mem_cons.mp hm with h | hm1
        · exact absurd h (by decide)
        rcases List.mem_cons.mp hm1 with h | hm2
        · exact absurd h (by decide)
        rcases List.mem_append.mp hm2 with h | hm3
        · exact absurd h (by decide)
        rcases List.mem_cons.mp hm3 with h | hm4
        · exact absurd h (by decide)
        rcases List.mem_append.mp hm4 with h | h
        · exact absurd h (by decide)
        · exact hvh h)]
    rfl
  unfold parse_entry_sections
  rw [show (String.mk (headingFull c ++
      (b ++ '\n' :: (ttHead ++ '\n' :: ("**Start time**: ".data ++ v))))).data =
      headingFull c ++ (b ++ '\n' :: (ttHead ++ '\n' :: ("**Start time**: ".data ++ v)))
      from rfl,
    extractSection_single c _ hnone]
  show parse_section_entries
      ⟨pyStrip ('\n' :: (b ++ '\n' :: (ttHead ++ '\n' :: ("**Start time**: ".data ++ v))))⟩ =
      parse_section_entries ⟨b⟩ ++ [(⟨"*Start time**: ".data ++ v⟩, "")]
  have hws : isPyWs '\n' = true := by decide
  rw [pyStrip_cons_ws hws]
  have hXfix : pyStrip (b ++ '\n' :: (ttHead ++ '\n' :: ("**Start time**: ".data ++ v))) =
      b ++ '\n' :: (ttHead ++ '\n' :: ("**Start time**: ".data ++ v)) := by
    rcases hbq : b with _ | ⟨d, bt⟩
    · exact absurd hbq hbne
    have hd : isPyWs d = false := head_not_ws_of_stripLeft (hbq ▸ hbl)
    unfold pyStrip
    rw [List.cons_append, stripLeft_cons_of_neg hd, ← List.cons_append, ← hbq]
    rw [show b ++ '\n' :: (ttHead ++ '\n' :: ("**Start time**: ".data ++ v)) =
        (b ++ '\n' :: (ttHead ++ '\n' :: "**Start time**: ".data)) ++ v from by
      simp [List.append_assoc]]
    rw [stripRight_append _ v hvne hvr]
  rw [hXfix, parse_section_entries_eq, pseList_append, pseList_append,
    show pseList ttHead = [] from rfl,
    pseList_startline v hvne hvr hvn hvb, parse_section_entries_eq b,
    List.nil_append]

/-- Concrete instantiation of `C10_time_tracking_absorbed`: the blockers body
absorbs the Time Tracking block and gains the start-time line as an item. -/
theorem C10_time_tracking_absorbed_witness :
    parse_entry_sections
      ⟨headingFull Cat.blockers ++
        ("- hard bug".data ++ '\n' ::
          (ttHead ++ '\n' :: ("**Start time**: ".data ++ "09:00".data)))⟩
      Cat.blockers =
      parse_section_entries ⟨"- hard bug".data⟩ ++
        [(⟨"*Start time**: ".data ++ "09:00".data⟩, "")] :=
  C10_time_tracking_absorbed Cat.blockers "- hard bug".data "09:00".data
    (by decide) (by decide) rfl (by decide) rfl (by decide) (by decide) (by decide)

/-- Gregorian leap-year test, as in CPython's `datetime`. -/
def isLeap (y : Nat) : Bool := (y % 4 == 0 && y % 100 != 0) || y % 400 == 0

/-- Cumulative days before each month in a non-leap year
(`_DAYS_BEFORE_MONTH`). -/
def dbmTable : Nat → Nat
  | 1 => 0
  | 2 => 31
  | 3 => 59
  | 4 => 90
  | 5 => 120
  | 6 => 151
  | 7 => 181
  | 8 => 212
  | 9 => 243
  | 10 => 273
  | 11 => 304
  | 12 => 334
  | _ => 0

/-- Days in each month of a non-leap year (`_DAYS_IN_MONTH`). -/
def dimTable : Nat → Nat
  | 2 => 28
  | 4 => 30
  | 6 => 30
  | 9 => 30
  | 11 => 30
  | _ => 31

/-- Days in a month, leap-aware. -/
def daysInMonth (y m : Nat) : Nat :=
  if m = 2 ∧ isLeap y then 29 else dimTable m

/-- Days before month `m` of year `y` (`_days_before_month`). -/
def daysBeforeMonth (y m : Nat) : Nat :=
  dbmTable m + (if 2 < m ∧ isLeap y then 1 else 0)

/-- Days before January 1st of year `y` (`_days_before_year`). -/
def daysBeforeYear (y : Nat) : Nat :=
  let n := y - 1
  n * 365 + n / 4 - n / 100 + n / 400

/-- A calendar date as CPython's `datetime` carries it. -/
structure Ymd where
  year : Nat
  month : Nat
  day : Nat
deriving DecidableEq

/-- Model of `date.toordinal()`: proleptic-Gregorian ordinal, 0001-01-01 is 1. -/
def toOrdinal (d : Ymd) : Nat :=
  daysBeforeYear d.year + daysBeforeMonth d.year d.month + d.day

/-- Model of `_ord2ymd`: the inverse conversion, exactly as CPython computes it. -/
def fromOrdinal (nn : Nat) : Ymd :=
  let n0 := nn - 1
  let n400 := n0 / 146097
  let r400 := n0 % 146097
  let n100 := r400 / 36524
  let r100 := r400 % 36524
  let n4 := r100 / 1461
  let r4 := r100 % 1461
  let n1 := r4 / 365
  let n := r4 % 365
  let year := n400 * 400 + 1 + n100 * 100 + n4 * 4 + n1
  if n1 = 4 ∨ n100 = 4 then ⟨year - 1, 12, 31⟩
  else
    let leap : Bool := n1 == 3 && (n4 != 24 || n100 == 3)
    let month := (n + 50) / 32
    let preceding := dbmTable month + (if 2 < month ∧ leap then 1 else 0)
    if n < preceding then
      let month2 := month - 1
      let preceding2 := preceding - (dimTable month2 + (if month2 = 2 ∧ leap then 1 else 0))
      ⟨year, month2, n - preceding2 + 1⟩
    else
      ⟨year, month, n - preceding + 1⟩

/-- Model of `date.weekday()`: Monday is 0. -/
def pyWeekday (d : Ymd) : Nat := (toOrdinal d + 6) % 7

/-- Alternatives of strptime directive `%m` (CPython regex `1[0-2]|0[1-9]|[1-9]`). -/
def altsMonth : List Char → List (Nat × List Char)
  | a :: b :: rest =>
    (if a.isDigit && b.isDigit &&
        ((digitVal a == 1 && digitVal b ≤ 2) || (digitVal a == 0 && 1 ≤ digitVal b)) then
      [(10 * digitVal a + digitVal b, rest)] else []) ++
    (if a.isDigit && 1 ≤ digitVal a then [(digitVal a, b :: rest)] else [])
  | [a] => if a.isDigit && 1 ≤ digitVal a then [(digitVal a, [])] else []
  | [] => []

/-- Alternatives of strptime directive `%d`
(CPython regex `3[01]|[12]\d|0[1-9]|[1-9]`). -/
def altsDay : List Char → List (Nat × List Char)
  | a :: b :: rest =>
    (if a.isDigit && b.isDigit &&
        ((digitVal a == 3 && digitVal b ≤ 1) ||
         ((digitVal a == 1 || digitVal a == 2)) ||
         (digitVal a == 0 && 1 ≤ digitVal b)) then
      [(10 * digitVal a + digitVal b, rest)] else []) ++
    (if a.isDigit && 1 ≤ digitVal a then [(digitVal a, b :: rest)] else [])
  | [a] => if a.isDigit && 1 ≤ digitVal a then [(digitVal a, [])] else []
  | [] => []

/-- Model of `datetime.strptime` with format `"%Y-%m-%d"`: four-digit year, 1-2 digit month and
day, full consumption, then the `datetime` constructor's range validation.
`none` models the `ValueError` the call raises on failure. -/
def parseDate (s : String) : Option Ymd :=
  match s.data with
  | y1 :: y2 :: y3 :: y4 :: '-' :: rest =>
    if y1.isDigit && y2.isDigit && y3.isDigit && y4.isDigit then
      let y := natOfDigits [y1, y2, y3, y4]
      firstSome (fun mr =>
        match mr.2 with
        | '-' :: rest2 =>
          firstSome (fun dr =>
            if dr.2 = [] then
              if 1 ≤ y ∧ 1 ≤ mr.1 ∧ mr.1 ≤ 12 ∧ 1 ≤ dr.1 ∧ dr.1 ≤ daysInMonth y mr.1 then
                some ⟨y, mr.1, dr.1⟩
              else none
            else none) (altsDay rest2)
        | _ => none) (altsMonth rest)
    else none
  | _ => none

/-- Two-digit zero padding of strftime `%m` and `%d`. -/
def pad2 (n : Nat) : String := if n < 10 then "0" ++ toString n else toString n

/-- Model of `strftime("%Y-%m-%d")`.  The year is printed without padding, as glibc
does for `%Y`; all dates in scope have four-digit years. -/
def formatDate (d : Ymd) : String :=
  toString d.year ++ "-" ++ pad2 d.month ++ "-" ++ pad2 d.day

/-- Loop of `calculate_current_streak`: extend while each date is exactly one
day before the previous; `none` models the `ValueError` of an unparseable
date reached by the loop. -/
def streakGo (prev : String) : List String → Nat → Option Nat
  | [], streak => some streak
  | cur :: t, streak =>
    match parseDate cur, parseDate prev with
    | some cd, some pd =>
      if toOrdinal cd = toOrdinal pd - 1 then streakGo cur t (streak + 1)
      else some streak
    | _, _ => none

/-- Model of `calculate_current_streak` from `templates.py`: 0 on an empty list, else
1 plus the run of consecutive days from the most recent date. -/
def calculate_current_streak : List String → Option Nat
  | [] => some 0
  | d0 :: rest => streakGo d0 rest 1

/-- Grouping loop of `generate_table_rows_with_breaks`: partition the date
list into maximal runs of calendar-consecutive dates. -/
def sgGo (prev : String) (curGroup : List String) (acc : List (List String)) :
    List String → Option (List (List String))
  | [] => some (acc ++ [curGroup])
  | d :: t =>
    match parseDate d, parseDate prev with
    | some cd, some pd =>
      if toOrdinal cd = toOrdinal pd - 1 then sgGo d (curGroup ++ [d]) acc t
      else sgGo d [d] (acc ++ [curGroup]) t
    | _, _ => none

/-- The streak groups computed in the first phase of
`generate_table_rows_with_breaks`. -/
def streakGroups : List String → Option (List (List String))
  | [] => some []
  | d0 :: rest =>
    match parseDate d0 with
    | some _ => sgGo d0 [d0] [] rest
    | none => none

/-- The mojibake bytes the source file holds in place of the fire emoji of
`streak_text` (the file was saved through a cp1252 round-trip). -/
def fireStr : String :=
  ⟨[Char.ofNat 0xF0, Char.ofNat 0x178, Char.ofNat 0x201D, Char.ofNat 0xA5]⟩

/-- The mojibake bytes the source file holds in place of the pause emoji of
the break-indicator row. -/
def pauseStr : String :=
  ⟨[Char.ofNat 0xE2, Char.ofNat 0xB8, Char.ofNat 0xEF, Char.ofNat 0xB8]⟩

/-- One dashboard table row:
`| {date} | [{date}](entries/{date}.md) | {work_time} | {streak_text} |`. -/
def mkRowStr (date wt : String) (sv : Nat) : String :=
  "| " ++ date ++ " | [" ++ date ++ "](entries/" ++ date ++ ".md) | " ++ wt ++
    " | " ++ fireStr ++ " " ++ toString sv ++ " |"

/-- The break-indicator row. -/
def breakRowStr (n : Int) : String :=
  "| | | | " ++ pauseStr ++ " **Break: " ++ toString n ++ " days** |"

/-- Model of `dict.get(key, default)` over an association list. -/
def lookupD (m : List (String × String)) (k dflt : String) : String :=
  match m.find? (fun pr => pr.1 = k) with
  | some pr => pr.2
  | none => dflt

/-- Rows of one streak group: the `i`-th date (0-indexed from the most recent
end) is printed with streak value `n - i` where `n` is the group length. -/
def groupRows (td : List (String × String)) (n : Nat) : Nat → List String → List String
  | _, [] => []
  | i, d :: t => mkRowStr d (lookupD td d "-") (n - i) :: groupRows td n (i + 1) t

/-- Second phase of `generate_table_rows_with_breaks`: emit the rows of each group
and, between two groups, a break-indicator row when the day gap is positive. -/
def rowsGo (td : List (String × String)) : List (List String) → Option (List String)
  | [] => some []
  | g :: gs =>
    let base := groupRows td g.length 0 g
    match gs with
    | [] => some base
    | g2 :: _ =>
      match g.getLast? with
      | none => (rowsGo td gs).map (fun rest => base ++ rest)
      | some dl =>
        match g2.head? with
        | none => none
        | some dn =>
          match parseDate dl, parseDate dn with
          | some cd, some nd =>
            let bl : Int := (toOrdinal cd : Int) - (toOrdinal nd : Int) - 1
            (rowsGo td gs).map (fun rest =>
              base ++ (if 0 < bl then [breakRowStr bl] else []) ++ rest)
          | _, _ => none

/-- Model of `generate_table_rows_with_breaks` from `templates.py`, over the date list
and the time-tracking map the source reads out of `aggregated_data`. -/
def generate_table_rows_with_breaks (sorted_dates : List String)
    (td : List (String × String)) : Option (List String) :=
  match sorted_dates with
  | [] => some []
  | _ =>
    match streakGroups sorted_dates with
    | some gs => rowsGo td gs
    | none => none

/-- Membership from `getLast?`. -/
theorem mem_of_getLast?_eq {l : List String} {a : String} (h : l.getLast? = some a) :
    a ∈ l := by
  obtain ⟨hne, hx⟩ := List.mem_getLast?_eq_getLast (show a ∈ l.getLast? by rw [h]; rfl)
  rw [hx]
  exact List.getLast_mem hne

/-- The grouping loop succeeds on parseable input, its groups are nonempty,
and flattened they give back the processed input. -/
theorem sgGo_spec (l : List String) : ∀ (prev : String) (cur : List String)
    (acc : List (List String)),
    (∀ d ∈ l, (parseDate d).isSome) → (parseDate prev).isSome → cur ≠ [] →
    (∀ g ∈ acc, g ≠ []) →
    ∃ gs, sgGo prev cur acc l = some gs ∧
      gs.flatten = acc.flatten ++ cur ++ l ∧ (∀ g ∈ gs, g ≠ []) := by
  induction l with
  | nil =>
    intro prev cur acc _ _ hcur hacc
    refine ⟨acc ++ [cur], rfl, by simp, ?_⟩
    intro g hg
    rcases List.mem_append.mp hg with h | h
    · exact hacc g h
    · rw [List.mem_singleton.mp h]; exact hcur
  | cons d t ih =>
    intro prev cur acc hp hprev hcur hacc
    obtain ⟨cd, hcd⟩ := Option.isSome_iff_exists.mp (hp d (List.mem_cons_self d t))
    obtain ⟨pd, hpd⟩ := Option.isSome_iff_exists.mp hprev
    have hpt : ∀ x ∈ t, (parseDate x).isSome :=
      fun x hx => hp x (List.mem_cons_of_mem d hx)
    have hdsome : (parseDate d).isSome := by rw [hcd]; rfl
    simp only [sgGo, hcd, hpd]
    by_cases hcons : toOrdinal cd = toOrdinal pd - 1
    · rw [if_pos hcons]
      obtain ⟨gs, h1, h2, h3⟩ := ih d (cur ++ [d]) acc hpt hdsome (by simp) hacc
      refine ⟨gs, h1, ?_, h3⟩
      rw [h2]
      simp
    · rw [if_neg hcons]
      obtain ⟨gs, h1, h2, h3⟩ := ih d [d] (acc ++ [cur]) hpt hdsome (by simp)
        (by
          intro g hg
          rcases List.mem_append.mp hg with h | h
          · exact hacc g h
          · rw [List.mem_singleton.mp h]; exact hcur)
      refine ⟨gs, h1, ?_, h3⟩
      rw [h2]
      simp

/-- The grouping loop and the current-streak loop walk the same run: the
first group ends where the streak count stops. -/
theorem sgGo_streakGo_rel (l : List String) : ∀ (prev : String) (cur : List String)
    (acc : List (List String)) (k : Nat),
    (∀ d ∈ l, (parseDate d).isSome) → (parseDate prev).isSome →
    ∃ (g : List String) (gs' : List (List String)),
      sgGo prev cur acc l = some (acc ++ (cur ++ g) :: gs') ∧
      streakGo prev l k = some (k + g.length) := by
  induction l with
  | nil =>
    intro prev cur acc k _ _
    exact ⟨[], [], by simp [sgGo], by simp [streakGo]⟩
  | cons d t ih =>
    intro prev cur acc k hp hprev
    obtain ⟨cd, hcd⟩ := Option.isSome_iff_exists.mp (hp d (List.mem_cons_self d t))
    obtain ⟨pd, hpd⟩ := Option.isSome_iff_exists.mp hprev
    have hpt : ∀ x ∈ t, (parseDate x).isSome :=
      fun x hx => hp x (List.mem_cons_of_mem d hx)
    have hdsome : (parseDate d).isSome := by rw [hcd]; rfl
    simp only [sgGo, streakGo, hcd, hpd]
    by_cases hcons : toOrdinal cd = toOrdinal pd - 1
    · rw [if_pos hcons, if_pos hcons]
      obtain ⟨g, gs', h1, h2⟩ := ih d (cur ++ [d]) acc (k + 1) hpt hdsome
      refine ⟨d :: g, gs', ?_, ?_⟩
      · rw [h1]
        simp
      · rw [h2]
        congr 1
        simp only [List.length_cons]
        omega
    · rw [if_neg hcons, if_neg hcons]
      obtain ⟨g, gs'', h1, _⟩ := ih d [d] (acc ++ [cur]) 1 hpt hdsome
      refine ⟨[], ([d] ++ g) :: gs'', ?_, by simp⟩
      rw [h1]
      simp

/-- Claim C9: the dashboard's current-streak value equals the length of the
first (most recent) streak group of the table, so the header and the top
row's streak counter agree. -/
theorem C9_streak_matches_first_group (dates : List String) (hne : dates ≠ [])
    (hp : ∀ d ∈ dates, (parseDate d).isSome) :
    ∃ g gs, streakGroups dates = some (g :: gs) ∧
      calculate_current_streak dates = some g.length := by
  rcases dates with _ | ⟨d0, rest⟩
  · exact absurd rfl hne
  obtain ⟨d0v, hd0⟩ := Option.isSome_iff_exists.mp (hp d0 (List.mem_cons_self d0 rest))
  obtain ⟨g, gs', h1, h2⟩ := sgGo_streakGo_rel rest d0 [d0] [] 1
    (fun x hx => hp x (List.mem_cons_of_mem d0 hx)) (by rw [hd0]; rfl)
  refine ⟨[d0] ++ g, gs', ?_, ?_⟩
  · simp only [streakGroups, hd0]
    rw [h1]
    simp
  · simp only [calculate_current_streak]
    rw [h2]
    congr 1
    simp [Nat.add_comm]

/-- Concrete instantiation of `C9_streak_matches_first_group`: a two-day run
followed by a gap has current streak 2, the length of the first group. -/
theorem C9_streak_matches_first_group_witness :
    ∃ g gs, streakGroups ["2025-07-16", "2025-07-15", "2025-07-13"] = some (g :: gs) ∧
      calculate_current_streak ["2025-07-16", "2025-07-15", "2025-07-13"] =
        some g.length :=
  C9_streak_matches_first_group ["2025-07-16", "2025-07-15", "2025-07-13"]
    (by decide) (by decide)

/-- Each date of a group is printed with streak value `n` minus its offset. -/
theorem groupRows_mem (td : List (String × String)) (n : Nat) :
    ∀ (g : List String) (j i : Nat) (h : i < g.length),
    mkRowStr (g.get ⟨i, h⟩) (lookupD td (g.get ⟨i, h⟩) "-") (n - (j + i)) ∈
      groupRows td n j g := by
  intro g
  induction g with
  | nil =>
    intro j i h
    simp at h
  | cons d t ih =>
    intro j i h
    match i with
    | 0 => exact List.mem_cons_self _ _
    | i' + 1 =>
      have hlt : i' < t.length := by
        simpa using Nat.lt_of_succ_lt_succ h
      have hrec := ih (j + 1) i' hlt
      have harith : j + 1 + i' = j + (i' + 1) := by omega
      rw [harith] at hrec
      exact List.mem_cons_of_mem _ hrec

/-- The row-emitting phase succeeds on nonempty parseable groups and its
output contains the rows of every group. -/
theorem rowsGo_spec (td : List (String × String)) : ∀ (gs : List (List String)),
    (∀ d ∈ gs.flatten, (parseDate d).isSome) → (∀ g ∈ gs, g ≠ []) →
    ∃ rows, rowsGo td gs = some rows ∧
      ∀ g ∈ gs, ∀ row ∈ groupRows td g.length 0 g, row ∈ rows := by
  intro gs
  induction gs with
  | nil => exact fun _ _ => ⟨[], rfl, by simp⟩
  | cons g gs' ih =>
    intro hp hne
    have hpg : ∀ d ∈ g, (parseDate d).isSome := by
      intro d hd
      exact hp d (by rw [List.flatten_cons]; exact List.mem_append_left _ hd)
    have hp' : ∀ d ∈ gs'.flatten, (parseDate d).isSome := by
      intro d hd
      exact hp d (by rw [List.flatten_cons]; exact List.mem_append_right _ hd)
    obtain ⟨rest, hrest, hmemr⟩ := ih hp' (fun x hx => hne x (List.mem_cons_of_mem g hx))
    rcases hgs : gs' with _ | ⟨g2, gs''⟩
    · refine ⟨groupRows td g.length 0 g, rfl, ?_⟩
      intro g' hg' row hrow
      rw [List.mem_singleton.mp hg'] at hrow
      exact hrow
    · subst hgs
      have hgne := hne g (List.mem_cons_self _ _)
      obtain ⟨dl, hdl⟩ := Option.isSome_iff_exists.mp (List.getLast?_isSome.mpr hgne)
      have hg2ne := hne g2 (List.mem_cons_of_mem _ (List.mem_cons_self _ _))
      obtain ⟨dn, hdn⟩ : ∃ dn, g2.head? = some dn := by
        rcases g2 with _ | ⟨x, xs⟩
        · exact absurd rfl hg2ne
        · exact ⟨x, rfl⟩
      obtain ⟨cd, hcd⟩ := Option.isSome_iff_exists.mp (hpg dl (mem_of_getLast?_eq hdl))
      obtain ⟨nd, hnd⟩ := Option.isSome_iff_exists.mp
        (hp' dn (by rw [List.flatten_cons]; exact List.mem_append_left _ (List.mem_of_mem_head? hdn)))
      refine ⟨groupRows td g.length 0 g ++
          (if 0 < (toOrdinal cd : Int) - (toOrdinal nd : Int) - 1 then
            [breakRowStr ((toOrdinal cd : Int) - (toOrdinal nd : Int) - 1)] else []) ++ rest,
        ?_, ?_⟩
      · have hstep : rowsGo td (g :: g2 :: gs'') =
            (rowsGo td (g2 :: gs'')).map (fun rest =>
              (groupRows td g.length 0 g ++
                (if 0 < (toOrdinal cd : Int) - (toOrdinal nd : Int) - 1 then
                  [breakRowStr ((toOrdinal cd : Int) - (toOrdinal nd : Int) - 1)]
                else [])) ++ rest) := by
          simp only [rowsGo, hdl, hdn, hcd, hnd]
        rw [hstep, hrest]
        rfl
      · intro g' hg' row hrow
        rcases List.mem_cons.mp hg' with rfl | hg'mem
        · exact List.mem_append_left _ (List.mem_append_left _ hrow)
        · exact List.mem_append_right _ (hmemr g' hg'mem row hrow)

/-- Claim C4: within each streak group of the dashboard table the row for the
i-th date, 0-indexed from the most-recent end, carries streak value
`group_length - i`; in particular the oldest date of a group gets 1 and the
most recent gets the group length.  The groups partition the date list in
order, most recent first. -/
theorem C4_streak_numbering (dates : List String) (td : List (String × String))
    (hp : ∀ d ∈ dates, (parseDate d).isSome) :
    ∃ gs rows, streakGroups dates = some gs ∧ gs.flatten = dates ∧
      generate_table_rows_with_breaks dates td = some rows ∧
      ∀ g ∈ gs, ∀ i (h : i < g.length),
        mkRowStr (g.get ⟨i, h⟩) (lookupD td (g.get ⟨i, h⟩) "-") (g.length - i) ∈ rows := by
  rcases dates with _ | ⟨d0, rest⟩
  · exact ⟨[], [], rfl, rfl, rfl, by simp⟩
  obtain ⟨d0v, hd0⟩ := Option.isSome_iff_exists.mp (hp d0 (List.mem_cons_self d0 rest))
  obtain ⟨gs, h1, h2, h3⟩ := sgGo_spec rest d0 [d0] []
    (fun x hx => hp x (List.mem_cons_of_mem d0 hx)) (by rw [hd0]; rfl)
    (by simp) (by simp)
  have hflat : gs.flatten = d0 :: rest := by
    rw [h2]
    simp
  obtain ⟨rows, h4, h5⟩ := rowsGo_spec td gs (by rw [hflat]; exact hp) h3
  have hsg : streakGroups (d0 :: rest) = some gs := by
    simp only [streakGroups, hd0]
    exact h1
  refine ⟨gs, rows, hsg, hflat, ?_, ?_⟩
  · simp only [generate_table_rows_with_breaks, hsg]
    exact h4
  · intro g hg i h
    have := h5 g hg _ (groupRows_mem td g.length g 0 i h)
    simpa using this

/-- Concrete instantiation of `C4_streak_numbering`. -/
theorem C4_streak_numbering_witness :
    ∃ gs rows, streakGroups ["2025-07-16", "2025-07-15", "2025-07-13"] = some gs ∧
      gs.flatten = ["2025-07-16", "2025-07-15", "2025-07-13"] ∧
      generate_table_rows_with_breaks ["2025-07-16", "2025-07-15", "2025-07-13"]
        [("2025-07-15", "7.5h")] = some rows ∧
      ∀ g ∈ gs, ∀ i (h : i < g.length),
        mkRowStr (g.get ⟨i, h⟩)
          (lookupD [("2025-07-15", "7.5h")] (g.get ⟨i, h⟩) "-") (g.length - i) ∈ rows :=
  C4_streak_numbering ["2025-07-16", "2025-07-15", "2025-07-13"]
    [("2025-07-15", "7.5h")] (by decide)

/-- The accumulated data of one week in `get_weekly_work_time_data`:
`{"total_hours": ..., "entries": ..., "days": [...]}`. -/
structure WeekData where
  total : ℚ
  entries : Nat
  days : List (String × ℚ)
deriving DecidableEq

/-- The week key of a date: `strftime` of `entry_date - timedelta(days=weekday)`. -/
def weekKeyOf (dt : Ymd) : String := formatDate (fromOrdinal (toOrdinal dt - pyWeekday dt))

/-- Model of the bucket-creating branch: a missing week key is appended with zeroed data. -/
def ensureKey (wd : List (String × WeekData)) (wk : String) : List (String × WeekData) :=
  if (wd.find? (fun q => q.1 = wk)).isSome then wd else wd ++ [(wk, ⟨0, 0, []⟩)]

/-- The three `weekly_data[week_key][...] +=`/`append` updates. -/
def bumpKey (wd : List (String × WeekData)) (wk ds : String) (h : ℚ) :
    List (String × WeekData) :=
  wd.map (fun q => if q.1 = wk then
    (q.1, ⟨q.2.total + h, q.2.entries + 1, q.2.days ++ [(ds, h)]⟩) else q)

/-- Body of the loop of `get_weekly_work_time_data` after the date parsed:
ensure the bucket exists, then accumulate when the hours regex matches. -/
def weeklyAdd (wd : List (String × WeekData)) (ds wt : String) (dt : Ymd) :
    List (String × WeekData) :=
  match matchNumber wt.data with
  | some h => bumpKey (ensureKey wd (weekKeyOf dt)) (weekKeyOf dt) ds h
  | none => ensureKey wd (weekKeyOf dt)

/-- One iteration of the loop of `get_weekly_work_time_data`: skip empty or
dash work times, skip unparseable dates (`ValueError` caught), otherwise
ensure the week bucket exists and, when the hours regex matches, accumulate. -/
def weeklyStep (wd : List (String × WeekData)) (pr : String × String) :
    List (String × WeekData) :=
  if pr.2 = "" ∨ pr.2 = "-" then wd
  else
    match parseDate pr.1 with
    | none => wd
    | some dt => weeklyAdd wd pr.1 pr.2 dt

/-- Model of `get_weekly_work_time_data` from `templates.py`: the week dict modelled
as an insertion-ordered association list. -/
def get_weekly_work_time_data (td : List (String × String)) :
    List (String × WeekData) :=
  td.foldl weeklyStep []

/-- The Monday on or before ordinal `o` (ordinal 1, 0001-01-01, is a
Monday). -/
def mondayOnOrBefore (o : Nat) : Nat := o - (o - 1) % 7

/-- First-success inversion. -/
theorem firstSome_eq_some {α β : Type} {f : α → Option β} {l : List α} {b : β}
    (h : firstSome f l = some b) : ∃ a ∈ l, f a = some b := by
  induction l with
  | nil => exact Option.noConfusion h
  | cons a t ih =>
    simp only [firstSome] at h
    rcases hfa : f a with _ | b'
    · rw [hfa] at h
      obtain ⟨x, hx, hfx⟩ := ih h
      exact ⟨x, List.mem_cons_of_mem a hx, hfx⟩
    · rw [hfa] at h
      exact ⟨a, List.mem_cons_self a t, hfa.trans h⟩

/-- A parsed date has a positive day number (the constructor validates it). -/
theorem parseDate_day_pos {s : String} {dt : Ymd} (h : parseDate s = some dt) :
    1 ≤ dt.day := by
  unfold parseDate at h
  split at h
  case h_2 => exact Option.noConfusion h
  case h_1 y1 y2 y3 y4 rest =>
    split at h
    case isFalse => exact Option.noConfusion h
    case isTrue =>
      obtain ⟨mr, _, hmr⟩ := firstSome_eq_some h
      split at hmr
      case h_2 => exact Option.noConfusion hmr
      case h_1 rest2 =>
        obtain ⟨dr, _, hdr⟩ := firstSome_eq_some hmr
        split at hdr
        case isFalse => exact Option.noConfusion hdr
        case isTrue =>
          split at hdr
          case isFalse => exact Option.noConfusion hdr
          case isTrue hcond =>
            cases hdr
            exact hcond.2.2.2.1

/-- A valid date has a positive ordinal. -/
theorem toOrdinal_pos {dt : Ymd} (h : 1 ≤ dt.day) : 1 ≤ toOrdinal dt := by
  unfold toOrdinal
  omega

/-- The code's week start `ordinal - weekday` is the Monday on or before the
date. -/
theorem weekStart_eq_monday {dt : Ymd} (h : 1 ≤ toOrdinal dt) :
    toOrdinal dt - pyWeekday dt = mondayOnOrBefore (toOrdinal dt) := by
  unfold pyWeekday mondayOnOrBefore
  omega

/-- Lemma: `mondayOnOrBefore` really is the Monday on or before. -/
theorem mondayOnOrBefore_spec {o : Nat} (h : 1 ≤ o) :
    mondayOnOrBefore o ≤ o ∧ o < mondayOnOrBefore o + 7 ∧ mondayOnOrBefore o % 7 = 1 := by
  unfold mondayOnOrBefore
  omega

/-- Updating values at one key commutes with lookup by key. -/
theorem find?_bumpKey (wd : List (String × WeekData)) (K k ds : String) (h : ℚ) :
    (bumpKey wd K ds h).find? (fun q => q.1 = k) =
      (wd.find? (fun q => q.1 = k)).map (fun q => if q.1 = K then
        (q.1, ⟨q.2.total + h, q.2.entries + 1, q.2.days ++ [(ds, h)]⟩) else q) := by
  unfold bumpKey
  induction wd with
  | nil => rfl
  | cons q t ih =>
    have hkey : ((if q.1 = K then
        ((q.1, ⟨q.2.total + h, q.2.entries + 1, q.2.days ++ [(ds, h)]⟩) : String × WeekData)
      else q)).1 = q.1 := by
      split <;> rfl
    simp only [List.map_cons, List.find?_cons]
    rw [hkey]
    by_cases hk : q.1 = k
    · rw [show (decide (q.1 = k)) = true from by simp [hk]]
      rfl
    · rw [show (decide (q.1 = k)) = false from by simp [hk]]
      exact ih

/-- A key found before `ensureKey` is found unchanged after it. -/
theorem find?_ensureKey_of_found {wd : List (String × WeekData)} {k : String}
    {a : String × WeekData} (wk : String)
    (hf : wd.find? (fun q => q.1 = k) = some a) :
    (ensureKey wd wk).find? (fun q => q.1 = k) = some a := by
  unfold ensureKey
  split
  · exact hf
  · rw [List.find?_append, hf]
    rfl

/-- After `ensureKey`, the key is present. -/
theorem find?_ensureKey_self (wd : List (String × WeekData)) (wk : String) :
    ∃ w0, (ensureKey wd wk).find? (fun q => q.1 = wk) = some (wk, w0) := by
  unfold ensureKey
  split
  next hs =>
    obtain ⟨a, ha⟩ := Option.isSome_iff_exists.mp hs
    have hkey : a.1 = wk := by simpa using List.find?_some ha
    exact ⟨a.2, by rw [ha, ← hkey]⟩
  next hs =>
    have hnone : wd.find? (fun q => q.1 = wk) = none := by
      rcases hf : wd.find? (fun q => q.1 = wk) with _ | a
      · exact hf
      · exact absurd (by rw [hf]; rfl) hs
    rw [List.find?_append, hnone]
    exact ⟨⟨0, 0, []⟩, by rw [show (Option.none).or
      ([((wk : String), (⟨0, 0, []⟩ : WeekData))].find? (fun q => q.1 = wk)) =
      [((wk : String), (⟨0, 0, []⟩ : WeekData))].find? (fun q => q.1 = wk) from rfl]; simp⟩

/-- The bucket-contents monotonicity of one loop iteration: an existing
(date, hours) pair in a bucket survives any later iteration. -/
theorem weeklyStep_mem_mono {wd : List (String × WeekData)} {k : String} {w : WeekData}
    {x : String × ℚ} (pr : String × String)
    (hf : wd.find? (fun q => q.1 = k) = some (k, w)) (hx : x ∈ w.days) :
    ∃ w', (weeklyStep wd pr).find? (fun q => q.1 = k) = some (k, w') ∧ x ∈ w'.days := by
  unfold weeklyStep
  split
  · exact ⟨w, hf, hx⟩
  rcases hpd : parseDate pr.1 with _ | dt
  · exact ⟨w, hf, hx⟩
  show ∃ w', (weeklyAdd wd pr.1 pr.2 dt).find? (fun q => q.1 = k) = some (k, w') ∧
    x ∈ w'.days
  unfold weeklyAdd
  rcases hmn : matchNumber pr.2.data with _ | h
  · exact ⟨w, find?_ensureKey_of_found _ hf, hx⟩
  · show ∃ w', (bumpKey (ensureKey wd (weekKeyOf dt)) (weekKeyOf dt) pr.1 h).find?
        (fun q => q.1 = k) = some (k, w') ∧ x ∈ w'.days
    rw [find?_bumpKey, find?_ensureKey_of_found _ hf]
    by_cases hkk : k = weekKeyOf dt
    · refine ⟨⟨w.total + h, w.entries + 1, w.days ++ [(pr.1, h)]⟩, ?_, ?_⟩
      · simp only [Option.map_some']
        rw [if_pos hkk]
      · exact List.mem_append_left _ hx
    · refine ⟨w, ?_, hx⟩
      simp only [Option.map_some']
      rw [if_neg hkk]

/-- Processing an entry with a parseable date and parseable hours puts its
(date, hours) pair into the bucket of its week key. -/
theorem weeklyStep_adds (wd : List (String × WeekData)) {ds wt : String} {dt : Ymd}
    {h : ℚ} (hw1 : ¬ wt = "") (hw2 : ¬ wt = "-") (hpd : parseDate ds = some dt)
    (hmn : matchNumber wt.data = some h) :
    ∃ w', (weeklyStep wd (ds, wt)).find? (fun q => q.1 = weekKeyOf dt) =
        some (weekKeyOf dt, w') ∧ (ds, h) ∈ w'.days := by
  unfold weeklyStep
  rw [if_neg (by rintro (hc | hc); exacts [hw1 hc, hw2 hc])]
  rw [show parseDate (ds, wt).1 = some dt from hpd]
  show ∃ w', (weeklyAdd wd ds wt dt).find? (fun q => q.1 = weekKeyOf dt) =
    some (weekKeyOf dt, w') ∧ (ds, h) ∈ w'.days
  unfold weeklyAdd
  rw [hmn]
  show ∃ w', (bumpKey (ensureKey wd (weekKeyOf dt)) (weekKeyOf dt) ds h).find?
      (fun q => q.1 = weekKeyOf dt) = some (weekKeyOf dt, w') ∧ (ds, h) ∈ w'.days
  obtain ⟨w0, hw0⟩ := find?_ensureKey_self wd (weekKeyOf dt)
  rw [find?_bumpKey, hw0]
  refine ⟨⟨w0.total + h, w0.entries + 1, w0.days ++ [(ds, h)]⟩, ?_, by simp⟩
  simp

/-- Bucket bookkeeping invariant: total is the sum of the recorded day hours
and the entry count is their number. -/
def weeklyInv (wd : List (String × WeekData)) : Prop :=
  ∀ pr ∈ wd, pr.2.total = (pr.2.days.map Prod.snd).sum ∧ pr.2.entries = pr.2.days.length

/-- Lemma: `ensureKey` preserves the invariant. -/
theorem weeklyInv_ensure {wd : List (String × WeekData)} (wk : String)
    (h : weeklyInv wd) : weeklyInv (ensureKey wd wk) := by
  unfold ensureKey
  split
  · exact h
  · intro pr hpr
    rcases List.mem_append.mp hpr with hm | hm
    · exact h pr hm
    · rw [List.mem_singleton.mp hm]
      exact ⟨rfl, rfl⟩

/-- Lemma: `bumpKey` preserves the invariant. -/
theorem weeklyInv_bump {wd : List (String × WeekData)} (wk ds : String) (hq : ℚ)
    (h : weeklyInv wd) : weeklyInv (bumpKey wd wk ds hq) := by
  intro pr hpr
  obtain ⟨q, hq2, rfl⟩ := List.mem_map.mp hpr
  by_cases hk : q.1 = wk
  · rw [if_pos hk]
    refine ⟨?_, ?_⟩
    · simp [(h q hq2).1, List.sum_append]
    · simp [(h q hq2).2]
  · rw [if_neg hk]
    exact h q hq2

/-- Lemma: `weeklyStep` preserves the invariant. -/
theorem weeklyInv_step {wd : List (String × WeekData)} (pr : String × String)
    (h : weeklyInv wd) : weeklyInv (weeklyStep wd pr) := by
  unfold weeklyStep
  split
  · exact h
  rcases parseDate pr.1 with _ | dt
  · exact h
  show weeklyInv (weeklyAdd wd pr.1 pr.2 dt)
  unfold weeklyAdd
  rcases matchNumber pr.2.data with _ | hq
  · exact weeklyInv_ensure _ h
  · exact weeklyInv_bump _ _ _ (weeklyInv_ensure _ h)

/-- The fold preserves the invariant. -/
theorem weekly_fold_inv (l : List (String × String)) : ∀ wd, weeklyInv wd →
    weeklyInv (l.foldl weeklyStep wd) := by
  induction l with
  | nil => exact fun wd h => h
  | cons pr t ih => exact fun wd h => ih _ (weeklyInv_step pr h)

/-- A recorded (date, hours) pair survives the rest of the fold. -/
theorem weekly_fold_mem (l : List (String × String)) : ∀ {wd : List (String × WeekData)}
    {k : String} {w : WeekData} {x : String × ℚ},
    wd.find? (fun q => q.1 = k) = some (k, w) → x ∈ w.days →
    ∃ w', (l.foldl weeklyStep wd).find? (fun q => q.1 = k) = some (k, w') ∧
      x ∈ w'.days := by
  induction l with
  | nil => exact fun hf hx => ⟨_, hf, hx⟩
  | cons pr t ih =>
    intro wd k w x hf hx
    obtain ⟨w1, h1, hx1⟩ := weeklyStep_mem_mono pr hf hx
    exact ih h1 hx1

/-- Claim C8: every time-map entry with a parseable date and parseable
worked-hours lands in the bucket keyed by the Monday on or before its date
(ISO weekday-based): the key is that Monday's date string, the bucket's day
list records the (date, hours) pair, and the bucket totals are the sum and
count of its recorded days.  In particular a Monday keys to itself and a
Sunday to the Monday six days earlier, witnessed by the 2025-07-14 /
2025-07-20 pair of concrete maps. -/
theorem C8_weekly_bucket :
    (∀ (td : List (String × String)) (ds wt : String) (dt : Ymd) (h : ℚ),
      (ds, wt) ∈ td → wt ≠ "" → wt ≠ "-" →
      parseDate ds = some dt → matchNumber wt.data = some h →
      mondayOnOrBefore (toOrdinal dt) ≤ toOrdinal dt ∧
      toOrdinal dt < mondayOnOrBefore (toOrdinal dt) + 7 ∧
      mondayOnOrBefore (toOrdinal dt) % 7 = 1 ∧
      ∃ w : WeekData,
        (get_weekly_work_time_data td).find?
          (fun q => q.1 = formatDate (fromOrdinal (mondayOnOrBefore (toOrdinal dt)))) =
          some (formatDate (fromOrdinal (mondayOnOrBefore (toOrdinal dt))), w) ∧
        (ds, h) ∈ w.days ∧
        w.total = (w.days.map Prod.snd).sum ∧ w.entries = w.days.length) ∧
    (get_weekly_work_time_data [("2025-07-14", "8h")]).map Prod.fst = ["2025-07-14"] ∧
    (get_weekly_work_time_data [("2025-07-20", "8h")]).map Prod.fst = ["2025-07-14"] := by
  refine ⟨?_, rfl, rfl⟩
  intro td ds wt dt h hmem hw1 hw2 hpd hmn
  have hord : 1 ≤ toOrdinal dt := toOrdinal_pos (parseDate_day_pos hpd)
  obtain ⟨hs1, hs2, hs3⟩ := mondayOnOrBefore_spec hord
  refine ⟨hs1, hs2, hs3, ?_⟩
  obtain ⟨l1, l2, rfl⟩ := List.append_of_mem hmem
  have hkeq : weekKeyOf dt = formatDate (fromOrdinal (mondayOnOrBefore (toOrdinal dt))) := by
    unfold weekKeyOf
    rw [weekStart_eq_monday hord]
  have hfold : get_weekly_work_time_data (l1 ++ (ds, wt) :: l2) =
      l2.foldl weeklyStep (weeklyStep (l1.foldl weeklyStep []) (ds, wt)) := by
    unfold get_weekly_work_time_data
    rw [List.foldl_append]
    rfl
  obtain ⟨w1, h1, hx1⟩ := weeklyStep_adds (l1.foldl weeklyStep []) hw1 hw2 hpd hmn
  obtain ⟨w', h', hx'⟩ := weekly_fold_mem l2 h1 hx1
  have hinv : weeklyInv (l2.foldl weeklyStep (weeklyStep (l1.foldl weeklyStep []) (ds, wt))) := by
    apply weekly_fold_inv
    apply weeklyInv_step
    apply weekly_fold_inv
    intro pr hpr
    simp at hpr
  have hmem' := List.mem_of_find?_eq_some h'
  obtain ⟨hti, hei⟩ := hinv _ hmem'
  rw [hfold, ← hkeq]
  exact ⟨w', h', hx', hti, hei⟩

/-- Concrete instantiation of the universally quantified part of
`C8_weekly_bucket`: a Wednesday entry lands in the bucket of the Monday of its week. -/
theorem C8_weekly_bucket_witness :
    mondayOnOrBefore (toOrdinal ⟨2025, 7, 16⟩) ≤ toOrdinal ⟨2025, 7, 16⟩ ∧
    toOrdinal ⟨2025, 7, 16⟩ < mondayOnOrBefore (toOrdinal ⟨2025, 7, 16⟩) + 7 ∧
    mondayOnOrBefore (toOrdinal ⟨2025, 7, 16⟩) % 7 = 1 ∧
    ∃ w : WeekData,
      (get_weekly_work_time_data [("2025-07-16", "8h")]).find?
        (fun q => q.1 = formatDate (fromOrdinal (mondayOnOrBefore (toOrdinal ⟨2025, 7, 16⟩)))) =
        some (formatDate (fromOrdinal (mondayOnOrBefore (toOrdinal ⟨2025, 7, 16⟩))), w) ∧
      ("2025-07-16", (8 : ℚ)) ∈ w.days ∧
      w.total = (w.days.map Prod.snd).sum ∧ w.entries = w.days.length :=
  C8_weekly_bucket.1 [("2025-07-16", "8h")] "2025-07-16" "8h" ⟨2025, 7, 16⟩
    (8 : ℚ) (List.mem_singleton.mpr rfl) (by decide) (by decide) rfl
    (by
      rw [show matchNumber "8h".data = some (((natOfDigits ['8'] : Nat) : ℚ)) from rfl,
        show (natOfDigits ['8'] : Nat) = 8 from rfl]
      norm_num)
